import Mathlib

/-!
# Verification of the `twenty-first` field / hash / MMR core

This file gives a shallow embedding, in Lean 4, of the parts of the
`twenty-first` Rust library that the specification talks about:

* `shared_math/b_field_element.rs` — arithmetic in the prime field
  `F_p` with `p = 2^64 - 2^32 + 1`, primitive roots of unity;
* `shared_math/rescue_prime.rs` — the Rescue-Prime permutation, its trace
  and its AIR constraints;
* `util_types/mmr/mmr_accumulator.rs` — the MMR accumulator and its batch
  operations.

Machine integers (`u128`, `u64`) are embedded as `Nat` with the reductions
`% QUOTIENT` written exactly where the source writes them; on the canonical
values the source manipulates, `u128` arithmetic never wraps, so `Nat`
arithmetic agrees with it.  Code that panics is embedded as an
`Option`-returning function (`none` = panic).  Helper functions of the
repository that are outside the provided sources (`other::xgcd`,
`Polynomial`, `MPolynomial`, `mmr/shared.rs`, `mmr/membership_proof.rs`,
`utils`) are modelled from the specification; each such definition carries
a doc comment starting with `Modelled from the spec:`.
-/

set_option maxRecDepth 20000

namespace TwentyFirst

/-- `BFieldElement::QUOTIENT`, the prime `p = 2^64 - 2^32 + 1`. -/
def QUOTIENT : Nat := 18446744069414584321

theorem QUOTIENT_eq_pow : QUOTIENT = 2 ^ 64 - 2 ^ 32 + 1 := by decide

/-- `BFieldElement(u128)` — the wrapped `u128` value, embedded as `Nat`. -/
structure BFieldElement where
  val : Nat
deriving DecidableEq, Repr

namespace BFieldElement

/-- `BFieldElement::MAX = QUOTIENT - 1`. -/
def MAX : Nat := QUOTIENT - 1

/-- `BFieldElement::new(value) = Self(value % Self::QUOTIENT)`. -/
def new (value : Nat) : BFieldElement := ⟨value % QUOTIENT⟩

/-- `impl Add`: `Self((self.0 + other.0) % Self::QUOTIENT)`. -/
def add (a b : BFieldElement) : BFieldElement := ⟨(a.val + b.val) % QUOTIENT⟩

/-- `impl Neg`: `Self(Self::QUOTIENT - self.0)` — note: no reduction. -/
def neg (a : BFieldElement) : BFieldElement := ⟨QUOTIENT - a.val⟩

/-- `impl Sub`: `-other + self`. -/
def sub (a b : BFieldElement) : BFieldElement := (neg b).add a

/-- `impl Mul`: `Self((self.0 * other.0) % Self::QUOTIENT)`. -/
def mul (a b : BFieldElement) : BFieldElement := ⟨(a.val * b.val) % QUOTIENT⟩

/-- The body of the loop in `BFieldElement::mod_pow_raw`: square, then
multiply by the base when bit `63 - i` of the exponent is set. -/
def modPowStep (powVal res : Nat) (acc i : Nat) : Nat :=
  if Nat.testBit powVal (63 - i) then (acc * acc % QUOTIENT) * res % QUOTIENT
  else acc * acc % QUOTIENT

/-- `BFieldElement::mod_pow_raw(pow: u64)`: special-cases `pow == 0` to `1`,
otherwise MSB-first square-and-multiply over all 64 bits of `pow`. -/
def mod_pow_raw (s : BFieldElement) (powVal : Nat) : Nat :=
  if powVal = 0 then 1
  else (List.range 64).foldl (modPowStep powVal s.val) 1

/-- `BFieldElement::mod_pow(pow) = Self(self.mod_pow_raw(pow))`. -/
def mod_pow (s : BFieldElement) (powVal : Nat) : BFieldElement := ⟨s.mod_pow_raw powVal⟩

/-- Modelled from the spec: `other::xgcd` (not under `src/`) is the extended
Euclidean algorithm on `(p, self.0)` as signed integers; `inverse` takes the
Bézout coefficient of `self.0` and normalises it to `[0, p)`.  We use
`Nat.gcdB`, Lean's extended-Euclidean Bézout coefficient, and normalise with
the same double-`%` expression as the source. -/
def inverse (s : BFieldElement) : BFieldElement :=
  ⟨((Nat.gcdB QUOTIENT s.val % (QUOTIENT : Int) + (QUOTIENT : Int)) % (QUOTIENT : Int)).toNat⟩

/-- `impl Div`: `Self((other.inverse().0 * self.0) % Self::QUOTIENT)`. -/
def div (a b : BFieldElement) : BFieldElement := ⟨(b.inverse.val * a.val) % QUOTIENT⟩

/-- `BFieldElement::legendre_symbol`: Euler's criterion, forced into
`{-1, 0, 1}`. -/
def legendre_symbol (s : BFieldElement) : Int :=
  let elem := s.mod_pow_raw ((QUOTIENT - 1) / 2)
  if elem = QUOTIENT - 1 then -1 else if elem = 0 then 0 else 1

end BFieldElement

/-! ## Correctness of `mod_pow_raw` -/

theorem QUOTIENT_pos : 0 < QUOTIENT := by decide

theorem one_lt_QUOTIENT : 1 < QUOTIENT := by decide

/-- Invariant of the square-and-multiply loop: after consuming the `k`
highest bits, the accumulator holds `res ^ (powVal >>> (64 - k)) % p`. -/
theorem modPow_foldl (powVal res : Nat) (hpow : powVal < 2 ^ 64) :
    ∀ k, k ≤ 64 →
      (List.range k).foldl (BFieldElement.modPowStep powVal res) 1
        = res ^ (powVal / 2 ^ (64 - k)) % QUOTIENT := by
  intro k
  induction k with
  | zero =>
    intro _
    have h0 : powVal / 2 ^ (64 - 0) = 0 := Nat.div_eq_of_lt (by simpa using hpow)
    rw [h0, pow_zero, Nat.mod_eq_of_lt one_lt_QUOTIENT]
    simp
  | succ k ih =>
    intro hk
    have hk64 : k ≤ 64 := Nat.le_of_succ_le hk
    rw [List.range_succ, List.foldl_append, List.foldl_cons, List.foldl_nil, ih hk64]
    have h64k : 64 - (k + 1) = 63 - k := by omega
    rw [h64k]
    set e := powVal / 2 ^ (63 - k) with he
    have hdiv : powVal / 2 ^ (64 - k) = e / 2 := by
      rw [he]
      have hsub : 64 - k = (63 - k) + 1 := by omega
      rw [hsub, pow_succ, ← Nat.div_div_eq_div_mul]
    have hbit : Nat.testBit powVal (63 - k) = decide (e % 2 = 1) := by
      rw [Nat.testBit_to_div_mod, he]
    have hsq : res ^ (e / 2) % QUOTIENT * (res ^ (e / 2) % QUOTIENT) % QUOTIENT
        = res ^ (e / 2 * 2) % QUOTIENT := by
      rw [← Nat.mul_mod, ← pow_add]
      ring_nf
    simp only [BFieldElement.modPowStep, hdiv]
    by_cases hpar : e % 2 = 1
    · rw [if_pos (by rw [hbit]; simp [hpar]), hsq, Nat.mod_mul_mod, ← pow_succ]
      have hee : e / 2 * 2 + 1 = e := by omega
      rw [hee]
    · rw [if_neg (by rw [hbit]; simp [hpar]), hsq]
      have hee : e / 2 * 2 = e := by omega
      rw [hee]

/-- `mod_pow_raw` computes `self.0 ^ pow % p` for every 64-bit exponent. -/
theorem BFieldElement.mod_pow_raw_eq (s : BFieldElement) (powVal : Nat)
    (hpow : powVal < 2 ^ 64) :
    s.mod_pow_raw powVal = s.val ^ powVal % QUOTIENT := by
  unfold mod_pow_raw
  by_cases h0 : powVal = 0
  · simp [h0, Nat.mod_eq_of_lt one_lt_QUOTIENT]
  · rw [if_neg h0, modPow_foldl powVal s.val hpow 64 (le_refl 64)]
    simp

/-- `mod_pow_raw` always returns a canonical value (for 64-bit exponents). -/
theorem BFieldElement.mod_pow_raw_lt (s : BFieldElement) (powVal : Nat)
    (hpow : powVal < 2 ^ 64) : s.mod_pow_raw powVal < QUOTIENT := by
  rw [s.mod_pow_raw_eq powVal hpow]
  exact Nat.mod_lt _ QUOTIENT_pos

/-! ## Primality of `QUOTIENT`

`p - 1 = 2^32 · 3 · 5 · 17 · 257 · 65537`, and `7` generates `F_p^*`;
Lucas's primality criterion then certifies `p` prime, with all modular
powers evaluated through `mod_pow_raw` (whose correctness is proved above).
-/

theorem QsubOne_factorization :
    QUOTIENT - 1 = 2 ^ 32 * (3 * (5 * (17 * (257 * 65537)))) := by decide

theorem prime_dvd_QsubOne_cases (q : Nat) (hq : Nat.Prime q)
    (hdvd : q ∣ QUOTIENT - 1) :
    q = 2 ∨ q = 3 ∨ q = 5 ∨ q = 17 ∨ q = 257 ∨ q = 65537 := by
  rw [QsubOne_factorization] at hdvd
  rcases (Nat.Prime.dvd_mul hq).mp hdvd with h | h
  · exact Or.inl ((Nat.prime_dvd_prime_iff_eq hq Nat.prime_two).mp (hq.dvd_of_dvd_pow h))
  rcases (Nat.Prime.dvd_mul hq).mp h with h | h
  · exact Or.inr (Or.inl ((Nat.prime_dvd_prime_iff_eq hq Nat.prime_three).mp h))
  rcases (Nat.Prime.dvd_mul hq).mp h with h | h
  · exact Or.inr (Or.inr (Or.inl ((Nat.prime_dvd_prime_iff_eq hq (by norm_num)).mp h)))
  rcases (Nat.Prime.dvd_mul hq).mp h with h | h
  · exact Or.inr (Or.inr (Or.inr (Or.inl ((Nat.prime_dvd_prime_iff_eq hq (by norm_num)).mp h))))
  rcases (Nat.Prime.dvd_mul hq).mp h with h | h
  · exact Or.inr (Or.inr (Or.inr (Or.inr (Or.inl
      ((Nat.prime_dvd_prime_iff_eq hq (by norm_num)).mp h)))))
  · exact Or.inr (Or.inr (Or.inr (Or.inr (Or.inr
      ((Nat.prime_dvd_prime_iff_eq hq (by norm_num)).mp h)))))

/-- Casting a `mod_pow_raw` result into `ZMod QUOTIENT` gives the power of
the cast base. -/
theorem cast_mod_pow_raw (a e : Nat) (he : e < 2 ^ 64) :
    (((BFieldElement.mod_pow_raw ⟨a⟩ e) : ℕ) : ZMod QUOTIENT)
      = ((a : ℕ) : ZMod QUOTIENT) ^ e := by
  rw [BFieldElement.mod_pow_raw_eq _ _ he, ZMod.natCast_mod, Nat.cast_pow]

theorem natCast_eq_one_iff_ZModQ (v : Nat) (hv : v < QUOTIENT) :
    ((v : ℕ) : ZMod QUOTIENT) = 1 ↔ v = 1 := by
  rw [show (1 : ZMod QUOTIENT) = ((1 : ℕ) : ZMod QUOTIENT) by norm_num,
    ZMod.natCast_eq_natCast_iff', Nat.mod_eq_of_lt hv,
    Nat.mod_eq_of_lt one_lt_QUOTIENT]

theorem QUOTIENT_prime : Nat.Prime QUOTIENT := by
  have h7 : ((7 : ℕ) : ZMod QUOTIENT) = (7 : ZMod QUOTIENT) := by norm_num
  refine lucas_primality QUOTIENT (7 : ZMod QUOTIENT) ?_ ?_
  · rw [← h7, ← cast_mod_pow_raw 7 (QUOTIENT - 1) (by decide),
      show BFieldElement.mod_pow_raw ⟨7⟩ (QUOTIENT - 1) = 1 from by decide]
    norm_num
  · intro q hq hdvd heq
    have hle : (QUOTIENT - 1) / q < 2 ^ 64 :=
      lt_of_le_of_lt (Nat.div_le_self _ _) (by decide)
    rw [← h7, ← cast_mod_pow_raw 7 ((QUOTIENT - 1) / q) hle] at heq
    have hv := (natCast_eq_one_iff_ZModQ _ (BFieldElement.mod_pow_raw_lt _ _ hle)).mp heq
    rcases prime_dvd_QsubOne_cases q hq hdvd with rfl | rfl | rfl | rfl | rfl | rfl
    · exact absurd hv (by decide)
    · exact absurd hv (by decide)
    · exact absurd hv (by decide)
    · exact absurd hv (by decide)
    · exact absurd hv (by decide)
    · exact absurd hv (by decide)

instance : Fact (Nat.Prime QUOTIENT) := ⟨QUOTIENT_prime⟩

/-! ## Inversion -/

/-- The value stored by `inverse` is always canonical. -/
theorem BFieldElement.inverse_val_lt (a : BFieldElement) : a.inverse.val < QUOTIENT := by
  unfold inverse
  show ((Nat.gcdB QUOTIENT a.val % (QUOTIENT : Int) + (QUOTIENT : Int))
      % (QUOTIENT : Int)).toNat < QUOTIENT
  have hQ : (0 : Int) < (QUOTIENT : Int) := by exact_mod_cast QUOTIENT_pos
  have h1 : 0 ≤ (Nat.gcdB QUOTIENT a.val % (QUOTIENT : Int) + (QUOTIENT : Int))
      % (QUOTIENT : Int) := Int.emod_nonneg _ hQ.ne'
  have h2 : (Nat.gcdB QUOTIENT a.val % (QUOTIENT : Int) + (QUOTIENT : Int))
      % (QUOTIENT : Int) < (QUOTIENT : Int) := Int.emod_lt_of_pos _ hQ
  omega

/-- The cast of `inverse` into `ZMod p` is the cast of the Bézout
coefficient. -/
theorem BFieldElement.inverse_cast (a : BFieldElement) :
    ((a.inverse.val : ℕ) : ZMod QUOTIENT)
      = ((Nat.gcdB QUOTIENT a.val : ℤ) : ZMod QUOTIENT) := by
  have hQ : (0 : Int) < (QUOTIENT : Int) := by exact_mod_cast QUOTIENT_pos
  have h1 : 0 ≤ (Nat.gcdB QUOTIENT a.val % (QUOTIENT : Int) + (QUOTIENT : Int))
      % (QUOTIENT : Int) := Int.emod_nonneg _ hQ.ne'
  have h2 : (a.inverse.val : ℤ)
      = (Nat.gcdB QUOTIENT a.val % (QUOTIENT : Int) + (QUOTIENT : Int))
        % (QUOTIENT : Int) := by
    simp only [inverse]
    exact Int.toNat_of_nonneg h1
  calc ((a.inverse.val : ℕ) : ZMod QUOTIENT)
      = (((a.inverse.val : ℤ)) : ZMod QUOTIENT) := by rw [Int.cast_natCast]
    _ = (((Nat.gcdB QUOTIENT a.val % (QUOTIENT : Int) + (QUOTIENT : Int))
          % (QUOTIENT : Int) : ℤ) : ZMod QUOTIENT) := by rw [h2]
    _ = ((Nat.gcdB QUOTIENT a.val : ℤ) : ZMod QUOTIENT) := by
        rw [ZMod.intCast_mod, Int.cast_add, ZMod.intCast_mod, Int.cast_natCast,
          ZMod.natCast_self, add_zero]

/-- C3, universal part: `a * inverse(a) = 1` for every canonical non-zero
`a`, together with canonicity of the result. -/
theorem inverse_mul_eq_one (a : BFieldElement) (hlt : a.val < QUOTIENT)
    (hne : a.val ≠ 0) :
    a.inverse.val < QUOTIENT ∧ (a.mul a.inverse).val = 1 := by
  refine ⟨a.inverse_val_lt, ?_⟩
  have hnd : ¬ QUOTIENT ∣ a.val := fun hdvd =>
    hne (Nat.eq_zero_of_dvd_of_lt hdvd hlt)
  have hg : Nat.gcd QUOTIENT a.val = 1 :=
    (Nat.Prime.coprime_iff_not_dvd QUOTIENT_prime).mpr hnd
  have hbez := Nat.gcd_eq_gcd_ab QUOTIENT a.val
  rw [hg] at hbez
  have hz : (1 : ZMod QUOTIENT)
      = (a.val : ZMod QUOTIENT) * ((Nat.gcdB QUOTIENT a.val : ℤ) : ZMod QUOTIENT) := by
    have hc := congrArg (fun z : ℤ => ((z : ℤ) : ZMod QUOTIENT)) hbez
    push_cast at hc
    simpa [ZMod.natCast_self] using hc
  show (a.val * a.inverse.val) % QUOTIENT = 1
  have hcast : (((a.val * a.inverse.val) % QUOTIENT : ℕ) : ZMod QUOTIENT) = 1 := by
    rw [ZMod.natCast_mod, Nat.cast_mul, a.inverse_cast, ← hz]
  exact (natCast_eq_one_iff_ZModQ _ (Nat.mod_lt _ QUOTIENT_pos)).mp hcast

instance : NeZero QUOTIENT := ⟨by decide⟩

/-- The inverse is the unique canonical element whose product with `a`
reduces to `1`. -/
theorem inverse_eq_of_mul (a v : Nat) (ha0 : a ≠ 0) (ha : a < QUOTIENT)
    (hv : v < QUOTIENT) (hmul : (a * v) % QUOTIENT = 1) :
    (⟨a⟩ : BFieldElement).inverse = ⟨v⟩ := by
  obtain ⟨hwlt, hw⟩ := inverse_mul_eq_one ⟨a⟩ ha ha0
  set w := (⟨a⟩ : BFieldElement).inverse.val with hwdef
  have hwNat : (a * w) % QUOTIENT = 1 := hw
  have hane : ((a : ℕ) : ZMod QUOTIENT) ≠ 0 := by
    intro h
    have hval := ZMod.val_cast_of_lt ha
    rw [h, ZMod.val_zero] at hval
    exact ha0 hval.symm
  have hzw : ((a : ℕ) : ZMod QUOTIENT) * ((w : ℕ) : ZMod QUOTIENT) = 1 := by
    rw [← Nat.cast_mul, ← ZMod.natCast_mod, hwNat, Nat.cast_one]
  have hzv : ((a : ℕ) : ZMod QUOTIENT) * ((v : ℕ) : ZMod QUOTIENT) = 1 := by
    rw [← Nat.cast_mul, ← ZMod.natCast_mod, hmul, Nat.cast_one]
  have hcast : ((w : ℕ) : ZMod QUOTIENT) = ((v : ℕ) : ZMod QUOTIENT) :=
    mul_left_cancel₀ hane (hzw.trans hzv.symm)
  have hwv : w = v := by
    have h1 := ZMod.val_cast_of_lt hwlt
    have h2 := ZMod.val_cast_of_lt hv
    rw [← h1, ← h2, hcast]
  calc (⟨a⟩ : BFieldElement).inverse = ⟨w⟩ := rfl
    _ = ⟨v⟩ := by rw [hwv]

/-- C2 (code bug): `neg` of the canonical zero stores the internal value
`p = QUOTIENT` itself, which is not `< p` — the canonical-representation
invariant is violated by `impl Neg` at input `0`. -/
theorem C2_neg_zero_not_canonical :
    (BFieldElement.neg (BFieldElement.new 0)).val = QUOTIENT
    ∧ ¬ (BFieldElement.neg (BFieldElement.new 0)).val < QUOTIENT := by decide

/-- C3: for every non-zero canonical `a`, `inverse(a)` is canonical and
`a * inverse(a) = 1`; moreover the three tabulated inverses from the
specification hold. -/
theorem C3_inverse (a : BFieldElement) (hlt : a.val < QUOTIENT) (hne : a.val ≠ 0) :
    (a.inverse.val < QUOTIENT ∧ (a.mul a.inverse).val = 1)
    ∧ (BFieldElement.new 2).inverse = ⟨9223372034707292161⟩
    ∧ (BFieldElement.new 3).inverse = ⟨12297829379609722881⟩
    ∧ (BFieldElement.new 85671106).inverse = ⟨13115294102219178839⟩ := by
  refine ⟨inverse_mul_eq_one a hlt hne, ?_, ?_, ?_⟩
  · exact inverse_eq_of_mul 2 9223372034707292161 (by decide) (by decide)
      (by decide) (by decide)
  · exact inverse_eq_of_mul 3 12297829379609722881 (by decide) (by decide)
      (by decide) (by decide)
  · exact inverse_eq_of_mul 85671106 13115294102219178839 (by decide) (by decide)
      (by decide) (by decide)

/-- Witness for C3 at the concrete input `a = 2`. -/
theorem C3_inverse_witness :
    (((⟨2⟩ : BFieldElement).inverse.val < QUOTIENT
        ∧ ((⟨2⟩ : BFieldElement).mul (⟨2⟩ : BFieldElement).inverse).val = 1)
      ∧ (BFieldElement.new 2).inverse = ⟨9223372034707292161⟩
      ∧ (BFieldElement.new 3).inverse = ⟨12297829379609722881⟩
      ∧ (BFieldElement.new 85671106).inverse = ⟨13115294102219178839⟩) :=
  C3_inverse ⟨2⟩ (by decide) (by decide)

/-- C6: `mod_pow` computes `a^e mod p` for every 64-bit exponent `e`
(by MSB-first square-and-multiply over all 64 bits, as embedded in
`mod_pow_raw`), and `mod_pow(a, 0) = 1` for every `a`, including `a = 0`. -/
theorem C6_mod_pow (a : BFieldElement) (e : Nat) (he : e < 2 ^ 64) :
    (a.mod_pow e).val = a.val ^ e % QUOTIENT ∧ (a.mod_pow 0).val = 1 := by
  exact ⟨a.mod_pow_raw_eq e he, rfl⟩

/-- Witness for C6 at `a = 3`, `e = 5`. -/
theorem C6_mod_pow_witness :
    ((⟨3⟩ : BFieldElement).mod_pow 5).val = (3 : Nat) ^ 5 % QUOTIENT
    ∧ ((⟨3⟩ : BFieldElement).mod_pow 0).val = 1 :=
  C6_mod_pow ⟨3⟩ 5 (by decide)

/-! ## Primitive roots of unity -/

/-- The `PRIMITIVE_ROOTS` static map of `b_field_element.rs`, keyed by the
powers of two `2^1 .. 2^32`. -/
def PRIMITIVE_ROOTS_pairs : List (Nat × Nat) := [
  (2, 18446744069414584320), (4, 281474976710656), (8, 18446744069397807105),
  (16, 17293822564807737345), (32, 70368744161280), (64, 549755813888),
  (128, 17870292113338400769), (256, 13797081185216407910),
  (512, 1803076106186727246), (1024, 11353340290879379826),
  (2048, 455906449640507599), (4096, 17492915097719143606),
  (8192, 1532612707718625687), (16384, 16207902636198568418),
  (32768, 17776499369601055404), (65536, 6115771955107415310),
  (131072, 12380578893860276750), (262144, 9306717745644682924),
  (524288, 18146160046829613826), (1048576, 3511170319078647661),
  (2097152, 17654865857378133588), (4194304, 5416168637041100469),
  (8388608, 16905767614792059275), (16777216, 9713644485405565297),
  (33554432, 5456943929260765144), (67108864, 17096174751763063430),
  (134217728, 1213594585890690845), (268435456, 6414415596519834757),
  (536870912, 16116352524544190054), (1073741824, 9123114210336311365),
  (2147483648, 4614640910117430873), (4294967296, 1753635133440165772)]

/-- Lookup in the `PRIMITIVE_ROOTS` map (`u64`-keyed). -/
def PRIMITIVE_ROOTS (n : Nat) : Option Nat := PRIMITIVE_ROOTS_pairs.lookup n

/-- Modelled from the spec: the source factors `n` by trial division with
`FIRST_THOUSAND_PRIMES` (a constant in `utils`, not under `src/`) followed
by the `primes_lt` sieve on the remaining cofactor; together they produce
exactly the prime divisors of `n` in increasing order, which is what this
definition computes directly. -/
def primeFactorsBelow (n : Nat) : List Nat :=
  (List.range (n + 1)).filter (fun q => decide (Nat.Prime q ∧ q ∣ n))

/-- The acceptance test of the candidate loop: `(-legendre(c)).is_one()`
and `c^((p-1)/q) ≠ 1` for every listed prime `q` dividing `n`. -/
def rootAccepted (primes : List Nat) (n c : Nat) : Bool :=
  (-(BFieldElement.legendre_symbol ⟨c⟩) == (1 : Int))
  && ((primes.filter (fun q => n % q == 0)).all
        (fun q => !(BFieldElement.mod_pow_raw ⟨c⟩ ((QUOTIENT - 1) / q) == 1)))

/-- The candidate loop `while primitive_root == None && candidate.0 < QUOTIENT`,
expressed with an explicit countdown (`fuel` = number of remaining
candidates). -/
def rootScan (primes : List Nat) (n : Nat) : Nat → Nat → Option BFieldElement
  | 0, _ => none
  | fuel + 1, c =>
      if rootAccepted primes n c then
        some (BFieldElement.mod_pow ⟨c⟩ ((QUOTIENT - 1) / n))
      else rootScan primes n fuel (c + 1)

/-- `GetPrimitiveRootOfUnity for BFieldElement`.  Note that the source keys
the map lookup by `n as u64`, i.e. by `n % 2^64`. -/
def getPrimitiveRootOfUnity (n : Nat) : Option BFieldElement × List Nat :=
  match PRIMITIVE_ROOTS (n % 2 ^ 64) with
  | some r => (some (BFieldElement.new r), [2])
  | none =>
    if n ≤ 1 then (some ⟨1⟩, [])
    else
      let primes := if n &&& (n - 1) = 0 then [2] else primeFactorsBelow n
      if ¬ ((QUOTIENT - 1) % n = 0) then (none, primes)
      else (rootScan primes n (QUOTIENT - 1) 1, primes)

theorem primeFactorsBelow_prime (n : Nat) :
    ∀ q ∈ primeFactorsBelow n, Nat.Prime q := by
  intro q hq
  rw [primeFactorsBelow, List.mem_filter] at hq
  exact (of_decide_eq_true hq.2).1

/-- If every key of an association list divides `p - 1` then a successful
lookup proves the looked-up key divides `p - 1`. -/
theorem lookup_key_dvd (l : List (Nat × Nat))
    (hl : ∀ p ∈ l, p.1 ∣ QUOTIENT - 1) (n : Nat)
    (hsome : (List.lookup n l).isSome) : n ∣ QUOTIENT - 1 := by
  induction l with
  | nil => simp [List.lookup] at hsome
  | cons p l ih =>
    obtain ⟨k, v⟩ := p
    by_cases h : k = n
    · exact h ▸ hl (k, v) (List.mem_cons_self _ _)
    · apply ih (fun q hq => hl q (List.mem_cons_of_mem _ hq))
      have hbe : (n == k) = false := beq_eq_false_iff_ne.mpr (Ne.symm h)
      simp only [List.lookup, hbe] at hsome
      exact hsome

/-- If some candidate within range is accepted, the scan succeeds. -/
theorem rootScan_isSome (primes : List Nat) (n : Nat) :
    ∀ fuel c, (∃ k, k < fuel ∧ rootAccepted primes n (c + k) = true) →
      (rootScan primes n fuel c).isSome := by
  intro fuel
  induction fuel with
  | zero =>
    rintro c ⟨k, hk, _⟩
    omega
  | succ fuel ih =>
    rintro c ⟨k, hk, hacc⟩
    rw [rootScan]
    by_cases h : rootAccepted primes n c = true
    · simp [h]
    · rw [if_neg (by simp [h])]
      apply ih
      have hk0 : k ≠ 0 := fun h0 => h (by simpa [h0] using hacc)
      refine ⟨k - 1, by omega, ?_⟩
      have hck : c + 1 + (k - 1) = c + k := by omega
      rw [hck]
      exact hacc

/-- `7` passes the acceptance test for every `n` dividing `p - 1`, for any
list of genuine primes. -/
theorem accepted_seven (primes : List Nat) (n : Nat) (hdvd : n ∣ QUOTIENT - 1)
    (hprimes : ∀ q ∈ primes, Nat.Prime q) :
    rootAccepted primes n 7 = true := by
  unfold rootAccepted
  rw [Bool.and_eq_true]
  constructor
  · have hleg : BFieldElement.legendre_symbol ⟨7⟩ = -1 := by
      unfold BFieldElement.legendre_symbol
      rw [show BFieldElement.mod_pow_raw ⟨7⟩ ((QUOTIENT - 1) / 2) = QUOTIENT - 1
        from by decide]
      simp
    rw [hleg]
    decide
  · rw [List.all_eq_true]
    intro q hq
    rw [List.mem_filter] at hq
    obtain ⟨hqmem, hqmod⟩ := hq
    rw [beq_iff_eq] at hqmod
    have hqdvd : q ∣ n := Nat.dvd_of_mod_eq_zero hqmod
    have hqQ : q ∣ QUOTIENT - 1 := hqdvd.trans hdvd
    rcases prime_dvd_QsubOne_cases q (hprimes q hqmem) hqQ with
      rfl | rfl | rfl | rfl | rfl | rfl
    · decide
    · decide
    · decide
    · decide
    · decide
    · decide

/-- Boolean table check for C4: the returned root is the table entry, its
`n`-th power is `1`, its `n/2`-th power is not. -/
def c4check (k : Nat) : Bool :=
  match PRIMITIVE_ROOTS (2 ^ k) with
  | none => false
  | some r =>
      ((getPrimitiveRootOfUnity (2 ^ k)).fst == some (BFieldElement.new r))
      && ((BFieldElement.new r).mod_pow_raw (2 ^ k) == 1)
      && !((BFieldElement.new r).mod_pow_raw (2 ^ k / 2) == 1)

theorem c4check_true : ∀ k, k < 33 → 1 ≤ k → c4check k = true := by decide

/-- C4 (amended): for `n = 2^k` with `1 ≤ k ≤ 32`, the function returns the
pre-computed table entry `ω`, which satisfies `ω^n = 1` and `ω^(n/2) ≠ 1`;
and the order-4 root is the literal `281474976710656`. -/
theorem C4_table_roots (k : Nat) (h1 : 1 ≤ k) (h2 : k ≤ 32) :
    (∃ r, PRIMITIVE_ROOTS (2 ^ k) = some r
      ∧ (getPrimitiveRootOfUnity (2 ^ k)).fst = some (BFieldElement.new r)
      ∧ (BFieldElement.new r).val ^ (2 ^ k) % QUOTIENT = 1
      ∧ (BFieldElement.new r).val ^ (2 ^ (k - 1)) % QUOTIENT ≠ 1)
    ∧ (getPrimitiveRootOfUnity 4).fst = some ⟨281474976710656⟩ := by
  constructor
  · have hc : c4check k = true := c4check_true k (by omega) h1
    have hexp : (2 : Nat) ^ k < 2 ^ 64 :=
      lt_of_le_of_lt (Nat.pow_le_pow_right (by norm_num) h2) (by norm_num)
    have hhalf : (2 : Nat) ^ k / 2 = 2 ^ (k - 1) := by
      cases k with
      | zero => exact absurd h1 (by omega)
      | succ m =>
        rw [Nat.succ_sub_one, pow_succ]
        omega
    unfold c4check at hc
    cases htab : PRIMITIVE_ROOTS (2 ^ k) with
    | none => rw [htab] at hc; simp at hc
    | some r =>
      rw [htab] at hc
      simp only [Bool.and_eq_true, beq_iff_eq, Bool.not_eq_true',
        beq_eq_false_iff_ne] at hc
      obtain ⟨⟨hfst, hpow⟩, hhalfne⟩ := hc
      refine ⟨r, rfl, hfst, ?_, ?_⟩
      · rw [← BFieldElement.mod_pow_raw_eq _ _ hexp]
        exact hpow
      · rw [← hhalf, ← BFieldElement.mod_pow_raw_eq _ _
          (lt_of_le_of_lt (Nat.div_le_self _ _) hexp)]
        exact hhalfne
  · decide

/-- Witness for C4 at `k = 2` (`n = 4`). -/
theorem C4_table_roots_witness :
    ((∃ r, PRIMITIVE_ROOTS (2 ^ 2) = some r
      ∧ (getPrimitiveRootOfUnity (2 ^ 2)).fst = some (BFieldElement.new r)
      ∧ (BFieldElement.new r).val ^ (2 ^ 2) % QUOTIENT = 1
      ∧ (BFieldElement.new r).val ^ (2 ^ (2 - 1)) % QUOTIENT ≠ 1)
    ∧ (getPrimitiveRootOfUnity 4).fst = some ⟨281474976710656⟩) :=
  C4_table_roots 2 (by decide) (by decide)

/-- C4 counterexample: the claim ranges over `1 ≤ n = 2^k ≤ 2^32`, but for
`n = 2^0 = 1` there is no pre-computed table entry to return; the function
returns `Some(1)` from the `n <= 1` branch instead. -/
theorem C4_counterexample_n_one :
    PRIMITIVE_ROOTS 1 = none
    ∧ (getPrimitiveRootOfUnity 1).fst = some ⟨1⟩ := by decide

/-- C5 counterexample: at `n = 0` the function returns `Some(1)` although
`0` does not divide `p - 1`; and (because the map lookup truncates `n` to
`u64`) at `n = 2^64 + 2` it also returns `Some` although `2^64 + 2` does
not divide `p - 1`. -/
theorem C5_counterexample_zero :
    ((getPrimitiveRootOfUnity 0).fst = some ⟨1⟩ ∧ ¬ (0 ∣ (QUOTIENT - 1)))
    ∧ ((getPrimitiveRootOfUnity (2 ^ 64 + 2)).fst.isSome = true
        ∧ ¬ ((2 ^ 64 + 2) ∣ (QUOTIENT - 1))) := by decide

/-- C5 (amended): for every `n` with `1 ≤ n < 2^64`, the first component is
`Some` exactly when `n` divides `p - 1`. -/
theorem C5_some_iff_dvd (n : Nat) (h1 : 1 ≤ n) (h2 : n < 2 ^ 64) :
    (getPrimitiveRootOfUnity n).fst.isSome = true ↔ n ∣ (QUOTIENT - 1) := by
  unfold getPrimitiveRootOfUnity
  have hmod : n % 2 ^ 64 = n := Nat.mod_eq_of_lt h2
  rw [hmod]
  cases htab : PRIMITIVE_ROOTS n with
  | some r =>
    simp only [Option.isSome_some, true_iff]
    refine lookup_key_dvd PRIMITIVE_ROOTS_pairs (by decide) n ?_
    show (PRIMITIVE_ROOTS n).isSome = true
    rw [htab]
    rfl
  | none =>
    by_cases hn1 : n ≤ 1
    · have hn : n = 1 := by omega
      subst hn
      rw [if_pos (le_refl 1)]
      simp
    · rw [if_neg hn1]
      by_cases hdvd : (QUOTIENT - 1) % n = 0
      · rw [if_neg (not_not_intro hdvd)]
        have hscan : (rootScan
            (if n &&& (n - 1) = 0 then [2] else primeFactorsBelow n)
            n (QUOTIENT - 1) 1).isSome = true := by
          apply rootScan_isSome
          refine ⟨6, by decide, ?_⟩
          show rootAccepted _ n 7 = true
          apply accepted_seven _ n (Nat.dvd_of_mod_eq_zero hdvd)
          intro q hq
          by_cases hpow2 : n &&& (n - 1) = 0
          · rw [if_pos hpow2] at hq
            simp at hq
            subst hq
            exact Nat.prime_two
          · rw [if_neg hpow2] at hq
            exact primeFactorsBelow_prime n q hq
        simpa [hscan] using Nat.dvd_of_mod_eq_zero hdvd
      · rw [if_pos hdvd]
        simp only [Option.isSome_none, Bool.false_eq_true, false_iff]
        intro hd
        obtain ⟨c, hc⟩ := hd
        exact hdvd (by rw [hc]; exact Nat.mul_mod_right n c)

/-- Witness for C5 at `n = 6`. -/
theorem C5_some_iff_dvd_witness :
    (getPrimitiveRootOfUnity 6).fst.isSome = true ↔ 6 ∣ (QUOTIENT - 1) :=
  C5_some_iff_dvd 6 (by decide) (by decide)

/-! ## Rescue-Prime

`rescue_prime.rs`.  Rust `Vec`s of parameters are embedded as total index
functions (`mds i j`, `round_constants t`); the state is a `List` of field
elements, and each intermediate stage of `hash_round` is the per-index
formula the source loop computes.
-/

/-- The `RescuePrime` parameter struct. -/
structure RescuePrime where
  m : Nat
  steps_count : Nat
  alpha : Nat
  alpha_inv : Nat
  mds : Nat → Nat → BFieldElement
  mds_inv : Nat → Nat → BFieldElement
  round_constants : Nat → BFieldElement

namespace RescuePrime

/-- The forward S-box stage of `hash_round`: `state[j] ^ alpha`. -/
def sbox1 (rp : RescuePrime) (input_state : List BFieldElement) :
    Nat → BFieldElement :=
  fun j => (input_state.getD j ⟨0⟩).mod_pow rp.alpha

/-- The MDS-matrix stage of `hash_round`:
`temp[i] = Σ_j mds[i][j] * state[j]` (accumulated left-to-right exactly as
the source's nested loop does). -/
def matRow (rp : RescuePrime) (f : Nat → BFieldElement) (i : Nat) :
    BFieldElement :=
  (List.range rp.m).foldl (fun acc j => acc.add ((rp.mds i j).mul (f j))) ⟨0⟩

/-- The state after the first half-round (S-box, matrix, constants). -/
def state2f (rp : RescuePrime) (input_state : List BFieldElement)
    (round_number : Nat) : Nat → BFieldElement :=
  fun i => (rp.matRow (rp.sbox1 input_state) i).add
    (rp.round_constants (2 * round_number * rp.m + i))

/-- The backward S-box stage: `state[j] ^ alpha_inv`. -/
def state3f (rp : RescuePrime) (input_state : List BFieldElement)
    (round_number : Nat) : Nat → BFieldElement :=
  fun j => (rp.state2f input_state round_number j).mod_pow rp.alpha_inv

/-- Output entry `i` of one round: matrix and second constants applied to
the backward half-round state. -/
def roundEntry (rp : RescuePrime) (input_state : List BFieldElement)
    (round_number i : Nat) : BFieldElement :=
  (rp.matRow (rp.state3f input_state round_number) i).add
    (rp.round_constants (2 * round_number * rp.m + rp.m + i))

/-- `RescuePrime::hash_round`: forward S-box, MDS matrix, first round
constants, backward S-box, MDS matrix, second round constants.  Each stage
of the source's `Vec` pipeline is one of the named stage functions above. -/
def hash_round (rp : RescuePrime) (input_state : List BFieldElement)
    (round_number : Nat) : List BFieldElement :=
  (List.range rp.m).map (rp.roundEntry input_state round_number)

/-- The initial state `(input, 0, ..., 0)`. -/
def state0 (rp : RescuePrime) (input : BFieldElement) : List BFieldElement :=
  (List.replicate rp.m (⟨0⟩ : BFieldElement)).set 0 input

/-- `RescuePrime::hash`. -/
def hash (rp : RescuePrime) (input : BFieldElement) : BFieldElement :=
  ((List.range rp.steps_count).foldl (fun st i => rp.hash_round st i)
    (rp.state0 input)).getD 0 ⟨0⟩

/-- One step of the `trace` loop: push the next state. -/
def traceStep (rp : RescuePrime)
    (acc : List (List BFieldElement) × List BFieldElement) (i : Nat) :
    List (List BFieldElement) × List BFieldElement :=
  let next := rp.hash_round acc.2 i
  (acc.1 ++ [next], next)

/-- `RescuePrime::trace`. -/
def trace (rp : RescuePrime) (input : BFieldElement) : List (List BFieldElement) :=
  ((List.range rp.steps_count).foldl rp.traceStep
    ([rp.state0 input], rp.state0 input)).1

/-- `RescuePrime::eval_and_trace`. -/
def eval_and_trace (rp : RescuePrime) (input : BFieldElement) :
    BFieldElement × List (List BFieldElement) :=
  (((rp.trace input).getLast?.getD []).getD 0 ⟨0⟩, rp.trace input)

/-- The state reached after `i` rounds. -/
def stateAt (rp : RescuePrime) (x : BFieldElement) : Nat → List BFieldElement
  | 0 => rp.state0 x
  | i + 1 => rp.hash_round (rp.stateAt x i) i

theorem hash_foldl (rp : RescuePrime) (x : BFieldElement) :
    ∀ n, (List.range n).foldl (fun st i => rp.hash_round st i) (rp.state0 x)
      = rp.stateAt x n := by
  intro n
  induction n with
  | zero => rfl
  | succ n ih =>
    rw [List.range_succ, List.foldl_append, List.foldl_cons, List.foldl_nil, ih]
    rfl

theorem trace_foldl (rp : RescuePrime) (x : BFieldElement) :
    ∀ n, (List.range n).foldl rp.traceStep ([rp.state0 x], rp.state0 x)
      = ((List.range (n + 1)).map (rp.stateAt x), rp.stateAt x n) := by
  intro n
  induction n with
  | zero => rfl
  | succ n ih =>
    rw [List.range_succ, List.foldl_append, List.foldl_cons, List.foldl_nil, ih]
    show (_ ++ [rp.hash_round (rp.stateAt x n) n], rp.hash_round (rp.stateAt x n) n) = _
    have hr : List.range (n + 1 + 1) = List.range (n + 1) ++ [n + 1] :=
      List.range_succ (n + 1)
    rw [hr, List.map_append]
    rfl

theorem trace_eq_map (rp : RescuePrime) (x : BFieldElement) :
    rp.trace x = (List.range (rp.steps_count + 1)).map (rp.stateAt x) := by
  unfold trace
  rw [trace_foldl]

theorem getD_map_range {α : Type} (f : Nat → α) (n i : Nat) (hi : i < n) (d : α) :
    ((List.range n).map f).getD i d = f i := by
  rw [List.getD_eq_getElem?_getD, List.getElem?_map, List.getElem?_range hi]
  rfl

/-- Every row of the trace has width `m`. -/
theorem stateAt_length (rp : RescuePrime) (x : BFieldElement) :
    ∀ i, (rp.stateAt x i).length = rp.m := by
  intro i
  cases i with
  | zero => simp [stateAt, state0]
  | succ i => simp [stateAt, hash_round]

end RescuePrime

/-- C7: `trace` has `steps_count + 1` rows of width `m`, starts at
`(x, 0, ..., 0)`, advances by one `hash_round` per row, and `hash` equals
entry 0 of the last row; `eval_and_trace` packages both. -/
theorem C7_trace (rp : RescuePrime) (hm : 0 < rp.m) (x : BFieldElement) :
    (rp.trace x).length = rp.steps_count + 1
    ∧ (∀ row ∈ rp.trace x, row.length = rp.m)
    ∧ (rp.trace x).getD 0 [] = x :: List.replicate (rp.m - 1) ⟨0⟩
    ∧ (∀ i, i < rp.steps_count →
        (rp.trace x).getD (i + 1) [] = rp.hash_round ((rp.trace x).getD i []) i)
    ∧ rp.hash x = ((rp.trace x).getLast?.getD []).getD 0 ⟨0⟩
    ∧ rp.eval_and_trace x = (rp.hash x, rp.trace x) := by
  have htr := rp.trace_eq_map x
  have hgetD : ∀ i, i < rp.steps_count + 1 → (rp.trace x).getD i [] = rp.stateAt x i := by
    intro i hi
    rw [htr, RescuePrime.getD_map_range _ _ _ hi]
  have hlast : (rp.trace x).getLast?.getD [] = rp.stateAt x rp.steps_count := by
    rw [htr, List.getLast?_eq_getElem?]
    simp only [List.length_map, List.length_range, Nat.add_sub_cancel]
    rw [List.getElem?_map, List.getElem?_range (Nat.lt_succ_self _)]
    rfl
  refine ⟨?_, ?_, ?_, ?_, ?_, ?_⟩
  · rw [htr]
    simp
  · intro row hrow
    rw [htr, List.mem_map] at hrow
    obtain ⟨i, _, rfl⟩ := hrow
    exact rp.stateAt_length x i
  · rw [hgetD 0 (by omega)]
    show (List.replicate rp.m (⟨0⟩ : BFieldElement)).set 0 x = _
    cases hmm : rp.m with
    | zero => omega
    | succ m' => simp [List.replicate_succ]
  · intro i hi
    rw [hgetD (i + 1) (by omega), hgetD i (by omega)]
    rfl
  · unfold RescuePrime.hash
    rw [RescuePrime.hash_foldl, hlast]
  · unfold RescuePrime.eval_and_trace
    rw [Prod.mk.injEq]
    refine ⟨?_, rfl⟩
    unfold RescuePrime.hash
    rw [RescuePrime.hash_foldl, hlast]

/-- Witness for C7: the one-register, one-round parameter set with identity
matrices and zero round constants, at input `x = 5`. -/
def rpTiny : RescuePrime :=
  { m := 1, steps_count := 1, alpha := 1, alpha_inv := 1
    mds := fun _ _ => ⟨1⟩, mds_inv := fun _ _ => ⟨1⟩
    round_constants := fun _ => ⟨0⟩ }

/-! ## Multivariate polynomials and AIR constraints

`MPolynomial` and `Polynomial` live outside `src/`; per §4.4 of the spec a
multivariate polynomial is a sparse map from exponent vectors to
coefficients with `evaluate(point) = Σ c_v · Π point[i]^{v[i]}`, and all of
its ring operations (`add`, `sub`, `mul`, `scalar_mul`, symbolic
`mod_pow`, `lift`, `variables`, `from_constant`) commute with `evaluate`.
We model a multivariate polynomial extensionally by its evaluation
function, which is exactly the interface `get_air_constraints` and the
AIR-soundness claim use. -/

/-- Modelled from the spec: a multivariate polynomial, represented by its
evaluation function on points (coordinate lists). -/
def MPoly : Type := List BFieldElement → BFieldElement

namespace MPoly

/-- `MPolynomial::evaluate`. -/
def evaluate (f : MPoly) (point : List BFieldElement) : BFieldElement := f point

/-- Modelled from the spec: addition merges like terms; evaluation adds. -/
def add (f g : MPoly) : MPoly := fun pt => (f pt).add (g pt)

/-- Modelled from the spec: subtraction; evaluation subtracts. -/
def sub (f g : MPoly) : MPoly := fun pt => (f pt).sub (g pt)

/-- Modelled from the spec: `scalar_mul` multiplies every coefficient, so
evaluation is multiplied by the scalar. -/
def scalar_mul (c : BFieldElement) (f : MPoly) : MPoly := fun pt => c.mul (f pt)

/-- Modelled from the spec: symbolic `mod_pow` (repeated squaring in the
multivariate ring); evaluation is the field power. -/
def mod_pow (f : MPoly) (e : Nat) : MPoly := fun pt => (f pt).mod_pow e

/-- Modelled from the spec: `from_constant`. -/
def from_constant (c : BFieldElement) : MPoly := fun _ => c

/-- Modelled from the spec: the `j`-th variable produced by
`MPolynomial::variables`. -/
def varAt (j : Nat) : MPoly := fun pt => pt.getD j ⟨0⟩

end MPoly

namespace RescuePrime

/-- Modelled from the spec: "Round-constant polynomials are the
degree-(s−1) univariates whose values at ωⁱ (0 ≤ i < s) equal the
appropriate constants, produced by Lagrange interpolation and then lifted
to the multivariate ring via slot 0."  (`slow_lagrange_interpolation`,
`get_generator_domain` and `MPolynomial::lift` are not under `src/`.)
The lifted polynomial is modelled by those specified values: at a point
whose slot-0 coordinate is `ω^step` (`step < s`), it takes the first-half
round constant of that step. -/
def first_step_constant (rp : RescuePrime) (omicron : BFieldElement) (i : Nat) :
    MPoly :=
  fun pt =>
    match (List.range rp.steps_count).find?
        (fun step => omicron.mod_pow step == pt.getD 0 ⟨0⟩) with
    | some step => rp.round_constants (2 * step * rp.m + i)
    | none => ⟨0⟩

/-- Modelled from the spec: the second-half round-constant polynomial,
analogous to `first_step_constant`. -/
def second_step_constant (rp : RescuePrime) (omicron : BFieldElement) (i : Nat) :
    MPoly :=
  fun pt =>
    match (List.range rp.steps_count).find?
        (fun step => omicron.mod_pow step == pt.getD 0 ⟨0⟩) with
    | some step => rp.round_constants (2 * step * rp.m + rp.m + i)
    | none => ⟨0⟩

/-- `RescuePrime::get_air_constraints`: for each register `i`, the
multivariate identity `lhs - rhs` in the variables
`X, p_1..p_m, n_1..n_m` (slots `0, 1..m, m+1..2m`). -/
def get_air_constraints (rp : RescuePrime) (omicron : BFieldElement) :
    List MPoly :=
  (List.range rp.m).map (fun i =>
    let lhs0 := (List.range rp.m).foldl
      (fun acc k => acc.add (((MPoly.varAt (1 + k)).mod_pow rp.alpha).scalar_mul
        (rp.mds i k)))
      (MPoly.from_constant ⟨0⟩)
    let lhs := lhs0.add (rp.first_step_constant omicron i)
    let rhs0 := (List.range rp.m).foldl
      (fun acc k => acc.add (((MPoly.varAt (rp.m + 1 + k)).sub
        (rp.second_step_constant omicron k)).scalar_mul (rp.mds_inv i k)))
      (MPoly.from_constant ⟨0⟩)
    let rhs := rhs0.mod_pow rp.alpha
    lhs.sub rhs)

end RescuePrime

/-! ### Cast of field elements into `ZMod p` -/

/-- Interpret an embedded `BFieldElement` in `ZMod p`. -/
def bcast (b : BFieldElement) : ZMod QUOTIENT := (b.val : ZMod QUOTIENT)

theorem bcast_add (a b : BFieldElement) : bcast (a.add b) = bcast a + bcast b := by
  show (((a.val + b.val) % QUOTIENT : ℕ) : ZMod QUOTIENT) = _
  rw [ZMod.natCast_mod, Nat.cast_add]
  rfl

theorem bcast_mul (a b : BFieldElement) : bcast (a.mul b) = bcast a * bcast b := by
  show (((a.val * b.val) % QUOTIENT : ℕ) : ZMod QUOTIENT) = _
  rw [ZMod.natCast_mod, Nat.cast_mul]
  rfl

theorem bcast_sub (a b : BFieldElement) (hb : b.val ≤ QUOTIENT) :
    bcast (a.sub b) = bcast a - bcast b := by
  show ((((QUOTIENT - b.val) + a.val) % QUOTIENT : ℕ) : ZMod QUOTIENT) = _
  rw [ZMod.natCast_mod, Nat.cast_add, Nat.cast_sub hb, ZMod.natCast_self]
  unfold bcast
  ring

theorem bcast_mod_pow (s : BFieldElement) (e : Nat) (he : e < 2 ^ 64) :
    bcast (s.mod_pow e) = (bcast s) ^ e := by
  show ((s.mod_pow_raw e : ℕ) : ZMod QUOTIENT) = _
  rw [s.mod_pow_raw_eq e he, ZMod.natCast_mod, Nat.cast_pow]
  rfl

theorem bcast_inj (a b : BFieldElement) (ha : a.val < QUOTIENT)
    (hb : b.val < QUOTIENT) (h : bcast a = bcast b) : a = b := by
  have h1 := ZMod.val_cast_of_lt ha
  have h2 := ZMod.val_cast_of_lt hb
  have hv : a.val = b.val := by rw [← h1, ← h2]; exact congrArg ZMod.val h
  cases a
  cases b
  simpa using hv

theorem foldl_add_bcast (g : Nat → BFieldElement) (l : List Nat) :
    ∀ init : BFieldElement,
      bcast (l.foldl (fun acc k => acc.add (g k)) init)
        = bcast init + (l.map (fun k => bcast (g k))).sum := by
  induction l with
  | nil =>
    intro init
    simp
  | cons a l ih =>
    intro init
    rw [List.foldl_cons, ih, bcast_add, List.map_cons, List.sum_cons]
    ring

/-- Bridge list sums over `range` to `Finset.range` sums. -/
theorem list_range_map_sum {M : Type} [AddCommMonoid M] (f : Nat → M) (n : Nat) :
    ((List.range n).map f).sum = ∑ k ∈ Finset.range n, f k := by
  induction n with
  | zero => simp
  | succ n ih =>
    rw [List.range_succ, List.map_append, List.sum_append, Finset.sum_range_succ, ih]
    simp

theorem foldl_add_apply (g : Nat → MPoly) (l : List Nat) :
    ∀ (init : MPoly) (pt : List BFieldElement),
      (l.foldl (fun acc k => MPoly.add acc (g k)) init) pt
        = l.foldl (fun acc k => acc.add (g k pt)) (init pt) := by
  induction l with
  | nil => intro init pt; rfl
  | cons a l ih =>
    intro init pt
    rw [List.foldl_cons, List.foldl_cons, ih]
    rfl

theorem getD_append_lt {α : Type} (l l' : List α) (n : Nat) (h : n < l.length)
    (d : α) : (l ++ l').getD n d = l.getD n d := by
  simp [List.getD_eq_getElem?_getD, List.getElem?_append, h]

theorem getD_append_ge {α : Type} (l l' : List α) (n : Nat) (h : l.length ≤ n)
    (d : α) : (l ++ l').getD n d = l'.getD (n - l.length) d := by
  simp [List.getD_eq_getElem?_getD, List.getElem?_append_right h]

/-- `find?` over `range' s len` returns the least satisfying index. -/
theorem find?_range'_eq_some (p : Nat → Bool) :
    ∀ (len s i : Nat), s ≤ i → i < s + len → p i = true →
      (∀ j, s ≤ j → j < i → p j = false) →
      (List.range' s len).find? p = some i := by
  intro len
  induction len with
  | zero =>
    intro s i h1 h2 _ _
    omega
  | succ len ih =>
    intro s i h1 h2 hp hmin
    rw [List.range'_succ]
    by_cases hsi : i = s
    · rw [List.find?_cons_of_pos _ (hsi ▸ hp)]
      rw [hsi]
    · have hs : p s = false := hmin s (le_refl s) (by omega)
      rw [List.find?_cons_of_neg _ (by simp [hs])]
      exact ih (s + 1) i (by omega) (by omega) hp (fun j hj1 hj2 => hmin j (by omega) hj2)

theorem find?_range_eq_some (p : Nat → Bool) (n i : Nat) (hi : i < n)
    (hp : p i = true) (hmin : ∀ j, j < i → p j = false) :
    (List.range n).find? p = some i := by
  rw [List.range_eq_range']
  exact find?_range'_eq_some p n 0 i (Nat.zero_le i) (by omega) hp
    (fun j _ hj => hmin j hj)

/-- Fermat cycle: if `a·b ≡ 1 (mod p-1)` then `(u^b)^a = u` in `ZMod p`. -/
theorem pow_cycle (u : ZMod QUOTIENT) (a b : Nat)
    (hab : a * b % (QUOTIENT - 1) = 1) : (u ^ b) ^ a = u := by
  rw [← pow_mul]
  have hba : b * a % (QUOTIENT - 1) = 1 := by rwa [Nat.mul_comm]
  have hpos : 1 ≤ b * a := by
    by_contra hc
    have hz : b * a = 0 := by omega
    rw [hz] at hba
    simp at hba
  have hdecomp : b * a = (QUOTIENT - 1) * (b * a / (QUOTIENT - 1)) + 1 := by
    conv_lhs => rw [← Nat.div_add_mod (b * a) (QUOTIENT - 1)]
    rw [hba]
  rw [hdecomp]
  by_cases hu : u = 0
  · subst hu
    rw [zero_pow (Nat.succ_ne_zero _)]
  · rw [pow_add, pow_one, pow_mul, ZMod.pow_card_sub_one_eq_one hu, one_pow, one_mul]

theorem sub_self_eq_zero (a : BFieldElement) (h : a.val ≤ QUOTIENT) :
    a.sub a = ⟨0⟩ := by
  show (⟨((QUOTIENT - a.val) + a.val) % QUOTIENT⟩ : BFieldElement) = ⟨0⟩
  rw [Nat.sub_add_cancel h, Nat.mod_self]

theorem add_val_lt (a b : BFieldElement) : (a.add b).val < QUOTIENT :=
  Nat.mod_lt _ QUOTIENT_pos

theorem bcast_zero : bcast ⟨0⟩ = 0 := by simp [bcast]

/-- `matRow` in `ZMod p` is the matrix-vector product row. -/
theorem matRow_bcast (rp : RescuePrime) (f : Nat → BFieldElement) (i : Nat) :
    bcast (rp.matRow f i)
      = ∑ j ∈ Finset.range rp.m, bcast (rp.mds i j) * bcast (f j) := by
  unfold RescuePrime.matRow
  rw [foldl_add_bcast (fun j => (rp.mds i j).mul (f j)) (List.range rp.m) ⟨0⟩,
    list_range_map_sum, bcast_zero, zero_add]
  apply Finset.sum_congr rfl
  intro j _
  rw [bcast_mul]

/-- The `k`-th entry of `hash_round`, written out in `ZMod p`:
`N_k = Σ_j M[k][j]·U_j^{α⁻¹} + C₂[k]` with
`U_j = Σ_{j'} M[j][j']·s_{j'}^α + C₁[j]`. -/
theorem hash_round_entry (rp : RescuePrime) (st : List BFieldElement) (r k : Nat)
    (hk : k < rp.m) (ha64 : rp.alpha < 2 ^ 64) (hai64 : rp.alpha_inv < 2 ^ 64) :
    bcast ((rp.hash_round st r).getD k ⟨0⟩)
      = (∑ j ∈ Finset.range rp.m,
          bcast (rp.mds k j)
            * (((∑ j2 ∈ Finset.range rp.m,
                  bcast (rp.mds j j2) * (bcast (st.getD j2 ⟨0⟩)) ^ rp.alpha)
                + bcast (rp.round_constants (2 * r * rp.m + j))) ^ rp.alpha_inv))
        + bcast (rp.round_constants (2 * r * rp.m + rp.m + k)) := by
  unfold RescuePrime.hash_round
  rw [RescuePrime.getD_map_range _ _ _ hk]
  unfold RescuePrime.roundEntry
  rw [bcast_add]
  congr 1
  rw [matRow_bcast]
  apply Finset.sum_congr rfl
  intro j _
  congr 1
  unfold RescuePrime.state3f
  rw [bcast_mod_pow _ _ hai64]
  congr 1
  unfold RescuePrime.state2f
  rw [bcast_add, matRow_bcast]
  congr 1
  apply Finset.sum_congr rfl
  intro j2 _
  congr 1
  unfold RescuePrime.sbox1
  rw [bcast_mod_pow _ _ ha64]

/-- C1: Rescue-Prime AIR soundness.  For every parameter set whose
`mds_inv` is the matrix inverse of `mds` modulo `p` and whose `alpha_inv`
inverts `alpha` modulo `p - 1`, with canonical round constants and an
`omicron` whose powers `ω^0..ω^{s-1}` are pairwise distinct, every one of
the `m` multivariate AIR polynomials returned by
`get_air_constraints(omicron)` evaluates to zero at the point
`(ω^i, T[i], T[i+1])` for every input `x` and every step
`i < steps_count`, the point laid out domain-value first, then the `m`
previous-state values, then the `m` next-state values. -/
theorem C1_air_zero_on_trace (rp : RescuePrime) (omicron : BFieldElement)
    (hm : 0 < rp.m)
    (ha64 : rp.alpha < 2 ^ 64) (hai64 : rp.alpha_inv < 2 ^ 64)
    (halpha : rp.alpha * rp.alpha_inv % (QUOTIENT - 1) = 1)
    (hrc : ∀ t, (rp.round_constants t).val < QUOTIENT)
    (hinv : ∀ a b, a < rp.m → b < rp.m →
      (∑ k ∈ Finset.range rp.m, bcast (rp.mds_inv a k) * bcast (rp.mds k b))
        = if a = b then 1 else 0)
    (homic : ∀ a b, a < rp.steps_count → b < rp.steps_count →
      omicron.mod_pow a = omicron.mod_pow b → a = b)
    (x : BFieldElement) (i : Nat) (hi : i < rp.steps_count) :
    ∀ c ∈ rp.get_air_constraints omicron,
      c.evaluate ((omicron.mod_pow i)
        :: ((rp.trace x).getD i [] ++ (rp.trace x).getD (i + 1) [])) = ⟨0⟩ := by
  intro c hc
  rw [RescuePrime.get_air_constraints, List.mem_map] at hc
  obtain ⟨r, hrm, rfl⟩ := hc
  rw [List.mem_range] at hrm
  set prev := (rp.trace x).getD i [] with hprev
  set next := (rp.trace x).getD (i + 1) [] with hnext
  set w : BFieldElement := omicron.mod_pow i with hw
  set pt : List BFieldElement := w :: (prev ++ next) with hpt
  have htr := rp.trace_eq_map x
  have hprevAt : prev = rp.stateAt x i := by
    rw [hprev, htr, RescuePrime.getD_map_range _ _ _ (by omega)]
  have hnextAt : next = rp.hash_round prev i := by
    rw [hnext, htr, RescuePrime.getD_map_range _ _ _ (by omega), hprevAt]
    rfl
  have hprevlen : prev.length = rp.m := by
    rw [hprevAt]
    exact rp.stateAt_length x i
  -- point coordinates
  have hpt0 : pt.getD 0 ⟨0⟩ = w := rfl
  have hptPrev : ∀ k, k < rp.m → pt.getD (1 + k) ⟨0⟩ = prev.getD k ⟨0⟩ := by
    intro k hk
    rw [show 1 + k = k + 1 by omega, hpt, List.getD_cons_succ]
    exact getD_append_lt _ _ _ (by omega) _
  have hptNext : ∀ k, k < rp.m → pt.getD (rp.m + 1 + k) ⟨0⟩ = next.getD k ⟨0⟩ := by
    intro k hk
    rw [show rp.m + 1 + k = (rp.m + k) + 1 by omega, hpt, List.getD_cons_succ,
      getD_append_ge _ _ _ (by omega)]
    congr 1
    omega
  -- the round-constant polynomials pick out step i
  have hfind : (List.range rp.steps_count).find?
      (fun step => omicron.mod_pow step == pt.getD 0 ⟨0⟩) = some i := by
    apply find?_range_eq_some _ _ i hi
    · rw [hpt0, hw]
      simp
    · intro j hj
      rw [hpt0, hw, beq_eq_false_iff_ne]
      intro heq
      exact absurd (homic j i (by omega) hi heq) (by omega)
  have hfsc : ∀ t, rp.first_step_constant omicron t pt
      = rp.round_constants (2 * i * rp.m + t) := by
    intro t
    unfold RescuePrime.first_step_constant
    rw [hfind]
  have hssc : ∀ t, rp.second_step_constant omicron t pt
      = rp.round_constants (2 * i * rp.m + rp.m + t) := by
    intro t
    unfold RescuePrime.second_step_constant
    rw [hfind]
  -- name the two evaluated sides
  show ((((List.range rp.m).foldl
      (fun acc k => MPoly.add acc
        (((MPoly.varAt (1 + k)).mod_pow rp.alpha).scalar_mul (rp.mds r k)))
      (MPoly.from_constant ⟨0⟩)) pt).add (rp.first_step_constant omicron r pt)).sub
    ((((List.range rp.m).foldl
      (fun acc k => MPoly.add acc
        (((MPoly.varAt (rp.m + 1 + k)).sub
          (rp.second_step_constant omicron k)).scalar_mul (rp.mds_inv r k)))
      (MPoly.from_constant ⟨0⟩)) pt).mod_pow rp.alpha) = ⟨0⟩
  set Lv : BFieldElement := (((List.range rp.m).foldl
      (fun acc k => MPoly.add acc
        (((MPoly.varAt (1 + k)).mod_pow rp.alpha).scalar_mul (rp.mds r k)))
      (MPoly.from_constant ⟨0⟩)) pt).add (rp.first_step_constant omicron r pt)
    with hLv
  set Rv : BFieldElement := (((List.range rp.m).foldl
      (fun acc k => MPoly.add acc
        (((MPoly.varAt (rp.m + 1 + k)).sub
          (rp.second_step_constant omicron k)).scalar_mul (rp.mds_inv r k)))
      (MPoly.from_constant ⟨0⟩)) pt).mod_pow rp.alpha
    with hRv
  set Uz : Nat → ZMod QUOTIENT := fun j =>
    (∑ j2 ∈ Finset.range rp.m,
      bcast (rp.mds j j2) * (bcast (prev.getD j2 ⟨0⟩)) ^ rp.alpha)
    + bcast (rp.round_constants (2 * i * rp.m + j)) with hUz
  -- left side evaluates (in ZMod p) to U_r
  have hz0 : bcast (MPoly.from_constant ⟨0⟩ pt) = 0 := bcast_zero
  have hLcast : bcast Lv = Uz r := by
    rw [hLv, bcast_add,
      foldl_add_apply
        (fun k => ((MPoly.varAt (1 + k)).mod_pow rp.alpha).scalar_mul (rp.mds r k))
        (List.range rp.m) (MPoly.from_constant ⟨0⟩) pt,
      foldl_add_bcast
        (fun k => (((MPoly.varAt (1 + k)).mod_pow rp.alpha).scalar_mul
          (rp.mds r k)) pt)
        (List.range rp.m) (MPoly.from_constant ⟨0⟩ pt),
      list_range_map_sum, hz0, zero_add, hfsc r]
    simp only [hUz]
    congr 1
    apply Finset.sum_congr rfl
    intro k hk
    rw [Finset.mem_range] at hk
    have hterm : (((MPoly.varAt (1 + k)).mod_pow rp.alpha).scalar_mul
        (rp.mds r k)) pt
        = (rp.mds r k).mul ((pt.getD (1 + k) ⟨0⟩).mod_pow rp.alpha) := rfl
    rw [hterm, bcast_mul, bcast_mod_pow _ _ ha64, hptPrev k hk]
  -- next-row entries in ZMod p
  have hNk : ∀ k, k < rp.m → bcast (next.getD k ⟨0⟩)
      = (∑ j ∈ Finset.range rp.m, bcast (rp.mds k j) * (Uz j) ^ rp.alpha_inv)
        + bcast (rp.round_constants (2 * i * rp.m + rp.m + k)) := by
    intro k hk
    rw [hnextAt, hash_round_entry rp prev i k hk ha64 hai64]
  -- right side evaluates (in ZMod p) to U_r as well
  have hRcast : bcast Rv = Uz r := by
    rw [hRv, bcast_mod_pow _ _ ha64,
      foldl_add_apply
        (fun k => ((MPoly.varAt (rp.m + 1 + k)).sub
          (rp.second_step_constant omicron k)).scalar_mul (rp.mds_inv r k))
        (List.range rp.m) (MPoly.from_constant ⟨0⟩) pt,
      foldl_add_bcast
        (fun k => (((MPoly.varAt (rp.m + 1 + k)).sub
          (rp.second_step_constant omicron k)).scalar_mul (rp.mds_inv r k)) pt)
        (List.range rp.m) (MPoly.from_constant ⟨0⟩ pt),
      list_range_map_sum, hz0, zero_add]
    have hterm : ∀ k ∈ Finset.range rp.m,
        bcast ((((MPoly.varAt (rp.m + 1 + k)).sub
          (rp.second_step_constant omicron k)).scalar_mul (rp.mds_inv r k)) pt)
        = bcast (rp.mds_inv r k)
          * ∑ j ∈ Finset.range rp.m, bcast (rp.mds k j) * (Uz j) ^ rp.alpha_inv := by
      intro k hk
      rw [Finset.mem_range] at hk
      have h1 : (((MPoly.varAt (rp.m + 1 + k)).sub
          (rp.second_step_constant omicron k)).scalar_mul (rp.mds_inv r k)) pt
          = (rp.mds_inv r k).mul
            ((pt.getD (rp.m + 1 + k) ⟨0⟩).sub
              (rp.second_step_constant omicron k pt)) := rfl
      rw [h1, hssc k, bcast_mul, bcast_sub _ _ (le_of_lt (hrc _)), hptNext k hk,
        hNk k hk]
      ring
    rw [Finset.sum_congr rfl hterm]
    calc (∑ k ∈ Finset.range rp.m, bcast (rp.mds_inv r k)
          * ∑ j ∈ Finset.range rp.m, bcast (rp.mds k j) * (Uz j) ^ rp.alpha_inv)
          ^ rp.alpha
        = (∑ k ∈ Finset.range rp.m, ∑ j ∈ Finset.range rp.m,
            (bcast (rp.mds_inv r k) * bcast (rp.mds k j)) * (Uz j) ^ rp.alpha_inv)
          ^ rp.alpha := by
          congr 1
          apply Finset.sum_congr rfl
          intro k _
          rw [Finset.mul_sum]
          apply Finset.sum_congr rfl
          intro j _
          ring
      _ = (∑ j ∈ Finset.range rp.m, ∑ k ∈ Finset.range rp.m,
            (bcast (rp.mds_inv r k) * bcast (rp.mds k j)) * (Uz j) ^ rp.alpha_inv)
          ^ rp.alpha := by
          rw [Finset.sum_comm]
      _ = (∑ j ∈ Finset.range rp.m,
            (if r = j then (1 : ZMod QUOTIENT) else 0) * (Uz j) ^ rp.alpha_inv)
          ^ rp.alpha := by
          congr 1
          apply Finset.sum_congr rfl
          intro j hj
          rw [Finset.mem_range] at hj
          rw [← Finset.sum_mul, hinv r j hrm hj]
      _ = ((Uz r) ^ rp.alpha_inv) ^ rp.alpha := by
          congr 1
          rw [Finset.sum_congr rfl
            (fun j _ => by
              rw [ite_mul, one_mul, zero_mul]),
            Finset.sum_ite_eq (Finset.range rp.m) r
              (fun j => (Uz j) ^ rp.alpha_inv),
            if_pos (Finset.mem_range.mpr hrm)]
      _ = Uz r := pow_cycle (Uz r) rp.alpha rp.alpha_inv halpha
  -- both sides are canonical and cast equal, hence equal
  have hRlt : Rv.val < QUOTIENT := by
    rw [hRv]
    exact BFieldElement.mod_pow_raw_lt _ _ ha64
  have hLlt : Lv.val < QUOTIENT := by
    rw [hLv]
    exact add_val_lt _ _
  have hLR : Lv = Rv := bcast_inj _ _ hLlt hRlt (by rw [hLcast, hRcast])
  rw [hLR]
  exact sub_self_eq_zero Rv (le_of_lt hRlt)

/-- Witness for C1: the tiny identity parameter set, input `x = 5`,
step `i = 0`. -/
theorem C1_air_zero_on_trace_witness :
    (rpTiny.get_air_constraints ⟨1⟩).map (fun c =>
      c.evaluate ((BFieldElement.mod_pow ⟨1⟩ 0)
        :: ((rpTiny.trace ⟨5⟩).getD 0 [] ++ (rpTiny.trace ⟨5⟩).getD (0 + 1) [])))
      = [⟨0⟩] := by
  have TH := C1_air_zero_on_trace rpTiny ⟨1⟩ (by decide) (by decide) (by decide)
    (by decide) (by intro t; exact QUOTIENT_pos)
    (fun a b ha hb => by
      have ha2 : a < 1 := ha
      have hb2 : b < 1 := hb
      have ha1 : a = 0 := by omega
      have hb1 : b = 0 := by omega
      subst ha1
      subst hb1
      simp [bcast, rpTiny, Finset.sum_range_one])
    (fun a b ha hb _ => by
      have ha2 : a < 1 := ha
      have hb2 : b < 1 := hb
      omega)
    ⟨5⟩ 0 (by decide)
  rw [List.map_congr_left TH]
  rfl

theorem C7_trace_witness :
    (rpTiny.trace ⟨5⟩).length = rpTiny.steps_count + 1
    ∧ (∀ row ∈ rpTiny.trace ⟨5⟩, row.length = rpTiny.m)
    ∧ (rpTiny.trace ⟨5⟩).getD 0 [] = ⟨5⟩ :: List.replicate (rpTiny.m - 1) ⟨0⟩
    ∧ (∀ i, i < rpTiny.steps_count →
        (rpTiny.trace ⟨5⟩).getD (i + 1) []
          = rpTiny.hash_round ((rpTiny.trace ⟨5⟩).getD i []) i)
    ∧ rpTiny.hash ⟨5⟩ = ((rpTiny.trace ⟨5⟩).getLast?.getD []).getD 0 ⟨0⟩
    ∧ rpTiny.eval_and_trace ⟨5⟩ = (rpTiny.hash ⟨5⟩, rpTiny.trace ⟨5⟩) :=
  C7_trace rpTiny (by decide) ⟨5⟩

/-! ## MMR accumulator

`mmr_accumulator.rs`.  Its helpers (`mmr/shared.rs`,
`mmr/membership_proof.rs`, `utils::has_unique_elements`) are not under
`src/` and are modelled from the spec: "MMR node indexing is 1-based,
peaks-last; helpers `data_index_to_node_index`, `leaf_index_to_peak_index`,
`right_child_and_height`, `parent`, `left_sibling`, `right_sibling` must be
implemented as pure functions of bit-representations".  Digests are an
abstract type `D` with a hash-pair function, mirroring the `H: Hasher`
type parameter. -/

/-- Fuel-bounded base-2 logarithm (structural, kernel-computable). -/
def log2Fuel : Nat → Nat → Nat
  | 0, _ => 0
  | fuel + 1, n => if 2 ≤ n then log2Fuel fuel (n / 2) + 1 else 0

/-- Modelled from the spec: `leftmost_ancestor` height — the smallest `h`
with `n ≤ 2^(h+1) - 1`, i.e. `⌊log₂ n⌋` for `n ≥ 1`. -/
def lmaH (n : Nat) : Nat := log2Fuel n n

/-- Modelled from the spec: the descent of `right_child_and_height` through
the virtual complete tree.  At a candidate root `c` of height `hh + 1` the
left child is `c - 2^(hh+1)` and the right child is `c - 1`. -/
def desc : Nat → Nat → Nat → Bool × Nat
  | 0, _, _ => (false, 0)
  | hh + 1, c, n =>
      let lc := c - 2 ^ (hh + 1)
      if n = lc then (false, hh)
      else if n < lc then desc hh lc n
      else if n = c - 1 then (true, hh)
      else desc hh (c - 1) n

/-- Modelled from the spec: `right_child_and_height` — whether a (1-based)
MMR node index is a right child, and its height. -/
def right_child_and_height (n : Nat) : Bool × Nat :=
  let h := lmaH n
  let a := 2 ^ (h + 1) - 1
  if n = a then (false, h) else desc h a n

/-- Modelled from the spec: `parent` — a right child's parent is `n + 1`,
a left child's is `n + 2^(h+1)`. -/
def parent (n : Nat) : Nat :=
  let rh := right_child_and_height n
  if rh.1 then n + 1 else n + 2 ^ (rh.2 + 1)

/-- Modelled from the spec: `left_sibling` of a right child at height `h`. -/
def left_sibling (n h : Nat) : Nat := n + 1 - 2 ^ (h + 1)

/-- Modelled from the spec: `right_sibling` of a left child at height `h`. -/
def right_sibling (n h : Nat) : Nat := n + 2 ^ (h + 1) - 1

/-- Modelled from the spec: the number of non-leaf nodes left of leaf `d`,
`Σ_{b set in d} (2^b - 1)` (u128 leaf indices, so 128 bits). -/
def non_leaf_nodes_left (d : Nat) : Nat :=
  ((List.range 128).filter (fun b => d.testBit b)).foldl
    (fun acc b => acc + (2 ^ b - 1)) 0

/-- Modelled from the spec: `data_index_to_node_index`. -/
def data_index_to_node_index (d : Nat) : Nat := d + non_leaf_nodes_left d + 1

/-- Modelled from the spec: the peak heights of an MMR with `lc` leaves are
the set-bit positions of `lc`, highest first. -/
def peakHeights (lc : Nat) : List Nat :=
  ((List.range 128).filter (fun h => lc.testBit h)).reverse

/-- Modelled from the spec: scan the mountains highest-first, accumulating
leaf counts, to find the mountain (peak position and height) containing
leaf `d`. -/
def findPeakAux : List Nat → Nat → Nat → Nat → Option (Nat × Nat)
  | [], _, _, _ => none
  | h :: rest, idx, acc, d =>
      if d < acc + 2 ^ h then some (idx, h)
      else findPeakAux rest (idx + 1) (acc + 2 ^ h) d

def findPeak (lc d : Nat) : Option (Nat × Nat) := findPeakAux (peakHeights lc) 0 0 d

/-- Modelled from the spec: `leaf_index_to_peak_index` (out-of-range leaves
map to the out-of-bounds position, which makes the caller's `Vec` indexing
panic). -/
def leaf_index_to_peak_index (d lc : Nat) : Nat :=
  ((findPeak lc d).map Prod.fst).getD (peakHeights lc).length

/-- Modelled from the spec: `get_peak_height`. -/
def get_peak_height (lc d : Nat) : Option Nat := (findPeak lc d).map Prod.snd

/-- `MembershipProof<H>`: a leaf index and its authentication path. -/
structure MembershipProof (D : Type) where
  data_index : Nat
  authentication_path : List D
deriving DecidableEq

/-- `MmrAccumulator<H>`: a leaf count and the peak digests. -/
structure MmrAccumulator (D : Type) where
  leaf_count : Nat
  peaks : List D
deriving DecidableEq

/-- The hash chain of `mutate_leaf` / `calculate_new_peaks_from_leaf_mutation`:
fold the authentication path upward from the leaf, ordering each pair by
`right_child_and_height` and stepping with `parent`. -/
def climb {D : Type} (hashPair : D → D → D) : Nat → D → List D → D
  | _, leaf, [] => leaf
  | node, leaf, hash :: rest =>
      let rh := right_child_and_height node
      climb hashPair (parent node)
        (if rh.1 then hashPair hash leaf else hashPair leaf hash) rest

/-- The node-to-digest pairs along a mutated leaf's path (leaf node plus the
recomputed inner nodes), used for shared-path discovery. -/
def climbTrace {D : Type} (hashPair : D → D → D) : Nat → D → List D → List (Nat × D)
  | node, leaf, [] => [(node, leaf)]
  | node, leaf, hash :: rest =>
      let rh := right_child_and_height node
      (node, leaf) :: climbTrace hashPair (parent node)
        (if rh.1 then hashPair hash leaf else hashPair leaf hash) rest

/-- Modelled from the spec: `MembershipProof::get_node_indices` — the node
indices of the authentication-path entries (the sibling at each level). -/
def getNodeIndicesAux : Nat → Nat → List Nat
  | 0, _ => []
  | k + 1, node =>
      let rh := right_child_and_height node
      (if rh.1 then left_sibling node rh.2 else right_sibling node rh.2)
        :: getNodeIndicesAux k (parent node)

def getNodeIndices {D : Type} (mp : MembershipProof D) : List Nat :=
  getNodeIndicesAux mp.authentication_path.length
    (data_index_to_node_index mp.data_index)

/-- Modelled from the spec: `MembershipProof::verify` — the recomputed root
must equal the peak of the leaf's mountain, and the path length must equal
the mountain height (data-model invariant of membership proofs). -/
def mpVerify {D : Type} [DecidableEq D] (hashPair : D → D → D) (peaks : List D)
    (leaf_count : Nat) (mp : MembershipProof D) (leaf : D) : Bool :=
  match findPeak leaf_count mp.data_index with
  | none => false
  | some (pidx, h) =>
      (mp.authentication_path.length == h)
      && (peaks.get? pidx
            == some (climb hashPair (data_index_to_node_index mp.data_index)
                leaf mp.authentication_path))

/-- Modelled from the spec: `utils::has_unique_elements` (hash-set based
uniqueness test). -/
def has_unique_elements {α : Type} [DecidableEq α] : List α → Bool
  | [] => true
  | x :: xs => !(xs.contains x) && has_unique_elements xs

/-- Modelled from the spec: `shared::calculate_new_peaks_from_leaf_mutation`
— hash up the path and replace the peak of the leaf's mountain; `None` when
the peak position does not exist. -/
def calculate_new_peaks_from_leaf_mutation {D : Type} (hashPair : D → D → D)
    (old_peaks : List D) (new_leaf : D) (leaf_count : Nat)
    (mp : MembershipProof D) : Option (List D) :=
  let acc_hash := climb hashPair (data_index_to_node_index mp.data_index)
    new_leaf mp.authentication_path
  let pidx := leaf_index_to_peak_index mp.data_index leaf_count
  if pidx < old_peaks.length then some (old_peaks.set pidx acc_hash) else none

/-- Number of trailing one-bits (number of peak folds an append causes). -/
def trailingOnes (n : Nat) : Nat :=
  ((List.range 128).find? (fun b => !(n.testBit b))).getD 128

/-- One fold: hash the two most recent peaks into one. -/
def appendFold {D : Type} (hashPair : D → D → D) :
    Nat → List D → List D → Option (List D × List D)
  | 0, peaks, path => some (peaks, path)
  | t + 1, peaks, path =>
      match peaks.reverse with
      | b :: a :: rest => appendFold hashPair t (rest.reverse ++ [hashPair a b])
          (path ++ [a])
      | _ => none

/-- Modelled from the spec: `shared::calculate_new_peaks_from_append` —
"append and fold: while the two most recent peaks are the same height, hash
them pairwise into a taller peak", returning the new peaks and a membership
proof for the appended leaf. -/
def calculate_new_peaks_from_append {D : Type} (hashPair : D → D → D)
    (leaf_count : Nat) (peaks : List D) (new_leaf : D) :
    Option (List D × MembershipProof D) :=
  (appendFold hashPair (trailingOnes leaf_count) (peaks ++ [new_leaf]) []).map
    (fun pr => (pr.1, ⟨leaf_count, pr.2⟩))

/-- Modelled from the spec:
`MembershipProof::batch_update_from_leaf_mutation` — replace the
authentication-path entries of the remaining proofs that lie on the mutated
leaf's recomputed path. -/
def batch_update_from_leaf_mutation {D : Type} [DecidableEq D]
    (hashPair : D → D → D) (mps : List (MembershipProof D))
    (mutated : MembershipProof D) (new_leaf : D) : List (MembershipProof D) :=
  let table := climbTrace hashPair (data_index_to_node_index mutated.data_index)
    new_leaf mutated.authentication_path
  mps.map (fun mp =>
    ⟨mp.data_index,
      (mp.authentication_path.zip (getNodeIndices mp)).map
        (fun pr => (table.lookup pr.2).getD pr.1)⟩)

namespace MmrAccumulator

/-- `MmrAccumulator::mutate_leaf`: recompute the chain from the leaf to the
peak and replace the peak whose height matches.  The source's two `panic!`
sites and the `Vec` indexing become `none`. -/
def mutate_leaf {D : Type} (hashPair : D → D → D) (acc : MmrAccumulator D)
    (mp : MembershipProof D) (new_leaf : D) : Option (MmrAccumulator D) :=
  let node_index := data_index_to_node_index mp.data_index
  let acc_hash := climb hashPair node_index new_leaf mp.authentication_path
  let peak_heights := peakHeights acc.leaf_count
  match get_peak_height acc.leaf_count mp.data_index with
  | none => none
  | some expected_peak_height =>
      match peak_heights.indexOf? expected_peak_height with
      | none => none
      | some peak_height_index =>
          if peak_height_index < acc.peaks.length then
            some ⟨acc.leaf_count, acc.peaks.set peak_height_index acc_hash⟩
          else none

/-- The leaf-mutation phase of `verify_batch_update`: apply each mutation to
the running peaks, updating the remaining mutations' authentication paths. -/
def verifyMutationLoop {D : Type} [DecidableEq D] (hashPair : D → D → D)
    (leaf_count : Nat) : Nat → List D → List (D × MembershipProof D) → Option (List D)
  | _, running_peaks, [] => some running_peaks
  | 0, _, _ :: _ => none
  | fuel + 1, running_peaks, (new_leaf_value, membership_proof) :: rest =>
      match calculate_new_peaks_from_leaf_mutation hashPair running_peaks
          new_leaf_value leaf_count membership_proof with
      | none => none
      | some p2 =>
          let updated := batch_update_from_leaf_mutation hashPair
            (rest.map Prod.snd) membership_proof new_leaf_value
          verifyMutationLoop hashPair leaf_count fuel p2
            ((rest.map Prod.fst).zip updated)

/-- The append phase of `verify_batch_update`. -/
def verifyAppendLoop {D : Type} (hashPair : D → D → D) :
    Nat → List D → List D → Option (List D)
  | _, running_peaks, [] => some running_peaks
  | running_leaf_count, running_peaks, leaf :: rest =>
      match calculate_new_peaks_from_append hashPair running_leaf_count
          running_peaks leaf with
      | none => none
      | some pr => verifyAppendLoop hashPair (running_leaf_count + 1) pr.1 rest

/-- `MmrAccumulator::verify_batch_update`: reject non-unique or
out-of-bounds mutation indices, then apply mutations and appends and compare
with `new_peaks`. -/
def verify_batch_update {D : Type} [DecidableEq D] (hashPair : D → D → D)
    (acc : MmrAccumulator D) (new_peaks : List D) (appended_leafs : List D)
    (leaf_mutations : List (D × MembershipProof D)) : Bool :=
  let manipulated_leaf_indices := leaf_mutations.map (fun x => x.2.data_index)
  if !(has_unique_elements manipulated_leaf_indices) then false
  else if (decide (acc.leaf_count = 0) && !manipulated_leaf_indices.isEmpty)
      || (!manipulated_leaf_indices.isEmpty
          && decide (acc.leaf_count ≤ manipulated_leaf_indices.foldr max 0)) then
    false
  else
    match verifyMutationLoop hashPair acc.leaf_count leaf_mutations.length
        acc.peaks leaf_mutations with
    | none => false
    | some peaks2 =>
        match verifyAppendLoop hashPair acc.leaf_count peaks2 appended_leafs with
        | none => false
        | some finalPeaks => finalPeaks == new_peaks

/-- The path walk of `batch_mutate_leaf_and_update_mps`: like `climb`, but
each sibling is first looked up in the shared node-to-digest map, and the
recomputed inner nodes (all but the peak) are inserted into the map. -/
def batchWalk {D : Type} [DecidableEq D] (hashPair : D → D → D) :
    List D → Nat → D → List (Nat × D) → D × List (Nat × D)
  | [], _node, acc, table => (acc, table)
  | hash :: rest, node, acc, table =>
      let rh := right_child_and_height node
      let sibling := if rh.1 then left_sibling node rh.2 else right_sibling node rh.2
      let sibling_hash := (table.lookup sibling).getD hash
      let acc2 := if rh.1 then hashPair sibling_hash acc else hashPair acc sibling_hash
      let node2 := if rh.1 then node + 1 else node + 2 ^ (rh.2 + 1)
      let table2 := if rest.isEmpty then table else (node2, acc2) :: table
      batchWalk hashPair rest node2 acc2 table2

/-- The mutation phase of `batch_mutate_leaf_and_update_mps` (`pop` from the
end of `mutation_data`, so this runs on the reversed list).  The
`assert!(former_value.is_none())` and the `Vec` peak indexing become
`none`. -/
def batchPhase1 {D : Type} [DecidableEq D] (hashPair : D → D → D)
    (leaf_count : Nat) :
    List (MembershipProof D × D) → List (Nat × D) → List D →
      Option (List (Nat × D) × List D)
  | [], table, peaks => some (table, peaks)
  | (ap, new_leaf) :: rest, table, peaks =>
      let node_index := data_index_to_node_index ap.data_index
      if (table.lookup node_index).isSome then none
      else
        let wr := batchWalk hashPair ap.authentication_path node_index new_leaf
          ((node_index, new_leaf) :: table)
        let pidx := leaf_index_to_peak_index ap.data_index leaf_count
        if pidx < peaks.length then
          batchPhase1 hashPair leaf_count rest wr.2 (peaks.set pidx wr.1)
        else none

/-- One membership proof updated against the shared map. -/
def phase2One {D : Type} [DecidableEq D] (table : List (Nat × D))
    (mp : MembershipProof D) : MembershipProof D :=
  ⟨mp.data_index,
    (mp.authentication_path.zip (getNodeIndices mp)).map
      (fun pr => (table.lookup pr.2).getD pr.1)⟩

/-- How many authentication-path entries of `mp` are replaced. -/
def hitCount {D : Type} [DecidableEq D] (table : List (Nat × D))
    (mp : MembershipProof D) : Nat :=
  ((mp.authentication_path.zip (getNodeIndices mp)).filter
    (fun pr => (table.lookup pr.2).isSome)).length

/-- The indices pushed by the proof-update loop: index `i` once per replaced
path entry of proof `i`, in ascending order of `i`. -/
def phase2Indices {D : Type} [DecidableEq D] (table : List (Nat × D)) :
    Nat → List (MembershipProof D) → List Nat
  | _, [] => []
  | i, mp :: rest =>
      List.replicate (hitCount table mp) i ++ phase2Indices table (i + 1) rest

/-- `Vec::dedup`: remove consecutive duplicates. -/
def consecDedup {α : Type} [DecidableEq α] : List α → List α
  | [] => []
  | [x] => [x]
  | x :: y :: rest =>
      if x = y then consecDedup (y :: rest) else x :: consecDedup (y :: rest)

/-- `MmrAccumulator::batch_mutate_leaf_and_update_mps`: returns the updated
accumulator, the updated membership proofs, and the deduplicated list of
modified proof indices (`none` = panic). -/
def batch_mutate_leaf_and_update_mps {D : Type} [DecidableEq D]
    (hashPair : D → D → D) (acc : MmrAccumulator D)
    (membership_proofs : List (MembershipProof D))
    (mutation_data : List (MembershipProof D × D)) :
    Option (MmrAccumulator D × List (MembershipProof D) × List Nat) :=
  match batchPhase1 hashPair acc.leaf_count mutation_data.reverse [] acc.peaks with
  | none => none
  | some pr =>
      some (⟨acc.leaf_count, pr.2⟩,
        membership_proofs.map (phase2One pr.1),
        consecDedup (phase2Indices pr.1 0 membership_proofs))

end MmrAccumulator

/-! ### C8 and C10: rejection of duplicated / out-of-range mutations -/

theorem has_unique_iff {α : Type} [DecidableEq α] :
    ∀ l : List α, has_unique_elements l = true ↔ l.Nodup := by
  intro l
  induction l with
  | nil => simp [has_unique_elements]
  | cons x xs ih =>
    rw [has_unique_elements, Bool.and_eq_true, Bool.not_eq_true',
      List.nodup_cons, ih]
    constructor
    · rintro ⟨h1, h2⟩
      refine ⟨fun hmem => ?_, h2⟩
      rw [← List.elem_iff] at hmem
      rw [List.contains] at h1
      rw [hmem] at h1
      cases h1
    · rintro ⟨h1, h2⟩
      refine ⟨?_, h2⟩
      rw [List.contains]
      by_cases he : xs.elem x = true
      · exact absurd (List.elem_iff.mp he) h1
      · exact Bool.eq_false_iff.mpr he

theorem foldr_max_le (l : List Nat) : ∀ x ∈ l, x ≤ l.foldr max 0 := by
  induction l with
  | nil => intro x hx; exact absurd hx (List.not_mem_nil x)
  | cons y ys ih =>
    intro x hx
    rw [List.foldr_cons]
    rcases List.mem_cons.mp hx with rfl | hx2
    · exact le_max_left _ _
    · exact le_trans (ih x hx2) (le_max_right _ _)

/-- C8: `verify_batch_update` returns `false` whenever the mutation list
contains a duplicated `data_index` or any `data_index ≥ leaf_count`
(in particular any mutation against an empty accumulator).  The receiver is
taken by `&self`, so the accumulator is unchanged — the embedding is a pure
function of the accumulator. -/
theorem C8_verify_batch_update_guards {D : Type} [DecidableEq D]
    (hashPair : D → D → D) (acc : MmrAccumulator D)
    (new_peaks appended : List D) (muts : List (D × MembershipProof D))
    (h : ¬ (muts.map (fun x => x.2.data_index)).Nodup
       ∨ ∃ pr ∈ muts, acc.leaf_count ≤ pr.2.data_index) :
    MmrAccumulator.verify_batch_update hashPair acc new_peaks appended muts
      = false := by
  by_cases hdup : (muts.map (fun x => x.2.data_index)).Nodup
  · cases h with
    | inl h1 => exact absurd hdup h1
    | inr hex =>
      obtain ⟨pr, hmem, hle⟩ := hex
      have hu : has_unique_elements (muts.map (fun x => x.2.data_index)) = true :=
        (has_unique_iff _).mpr hdup
      have hmm : pr.2.data_index ∈ muts.map (fun x => x.2.data_index) :=
        List.mem_map_of_mem _ hmem
      have hmax : acc.leaf_count ≤ (muts.map (fun x => x.2.data_index)).foldr max 0 :=
        le_trans hle (foldr_max_le _ _ hmm)
      have hie : (muts.map (fun x => x.2.data_index)).isEmpty = false := by
        cases hh : muts.map (fun x => x.2.data_index) with
        | nil => rw [hh] at hmm; exact absurd hmm (List.not_mem_nil _)
        | cons a l => rfl
      simp only [MmrAccumulator.verify_batch_update, hu, hie, hmax,
        Bool.not_true, Bool.if_false_left, decide_eq_true_eq]
      simp [hmax]
  · have hu : has_unique_elements (muts.map (fun x => x.2.data_index)) = false :=
      Bool.eq_false_iff.mpr (fun hc => hdup ((has_unique_iff _).mp hc))
    simp [MmrAccumulator.verify_batch_update, hu]

/-- Witness for C8: a one-leaf accumulator with an out-of-range mutation. -/
theorem C8_verify_batch_update_guards_witness :
    MmrAccumulator.verify_batch_update (fun a b => 2 * a + 3 * b + 5)
      (⟨1, [7]⟩ : MmrAccumulator Nat) [7] [] [(9, ⟨3, []⟩)] = false :=
  C8_verify_batch_update_guards _ _ _ _ _
    (Or.inr ⟨(9, ⟨3, []⟩), by decide, by decide⟩)

theorem lookup_isSome_cons {α β : Type} [DecidableEq α] (k : α) (v : β)
    (table : List (α × β)) (x : α) (h : (table.lookup x).isSome) :
    (((k, v) :: table).lookup x).isSome := by
  by_cases hk : x == k
  · simp [List.lookup, hk]
  · simp only [List.lookup]
    rw [Bool.eq_false_iff.mpr hk]
    exact h

theorem lookup_self_cons {α β : Type} [DecidableEq α] (k : α) (v : β)
    (table : List (α × β)) : (((k, v) :: table).lookup k).isSome := by
  simp [List.lookup]

theorem batchWalk_lookup_mono {D : Type} [DecidableEq D] (hp : D → D → D) :
    ∀ (path : List D) (node : Nat) (acc : D) (table : List (Nat × D)) (x : Nat),
      (table.lookup x).isSome →
      (((MmrAccumulator.batchWalk hp path node acc table).2).lookup x).isSome := by
  intro path
  induction path with
  | nil => intro node acc table x h; exact h
  | cons hash rest ih =>
    intro node acc table x h
    rw [MmrAccumulator.batchWalk]
    apply ih
    by_cases hre : rest.isEmpty
    · simpa [hre] using h
    · simp only [hre, if_false]
      exact lookup_isSome_cons _ _ _ _ h

theorem batchPhase1_dup_none {D : Type} [DecidableEq D] (hp : D → D → D)
    (lc : Nat) :
    ∀ (data : List (MembershipProof D × D)) (table : List (Nat × D))
      (peaks : List D),
      (¬ (data.map (fun pr => pr.1.data_index)).Nodup
        ∨ ∃ pr ∈ data,
            (table.lookup (data_index_to_node_index pr.1.data_index)).isSome) →
      MmrAccumulator.batchPhase1 hp lc data table peaks = none := by
  intro data
  induction data with
  | nil =>
    rintro table peaks (h | ⟨pr, hpr, _⟩)
    · exact absurd List.nodup_nil h
    · exact absurd hpr (List.not_mem_nil pr)
  | cons hd rest ih =>
    rintro table peaks h
    obtain ⟨ap, new_leaf⟩ := hd
    rw [MmrAccumulator.batchPhase1]
    by_cases h1 : (table.lookup (data_index_to_node_index ap.data_index)).isSome
    · rw [if_pos h1]
    · rw [if_neg h1]
      by_cases h2 : leaf_index_to_peak_index ap.data_index lc < peaks.length
      · rw [if_pos h2]
        apply ih
        cases h with
        | inl hdup =>
          rw [List.map_cons, List.nodup_cons] at hdup
          by_cases hmem : ap.data_index ∈ rest.map (fun pr => pr.1.data_index)
          · right
            obtain ⟨pr, hprmem, hpreq⟩ := List.mem_map.mp hmem
            refine ⟨pr, hprmem, ?_⟩
            apply batchWalk_lookup_mono
            rw [hpreq]
            exact lookup_self_cons _ _ _
          · left
            intro hc
            exact hdup ⟨hmem, hc⟩
        | inr hex =>
          obtain ⟨pr, hprmem, hsome⟩ := hex
          rcases List.mem_cons.mp hprmem with rfl | hprrest
          · exact absurd hsome h1
          · right
            exact ⟨pr, hprrest,
              batchWalk_lookup_mono hp _ _ _ _ _
                (lookup_isSome_cons _ _ _ _ hsome)⟩
      · rw [if_neg h2]

/-- C10: `batch_mutate_leaf_and_update_mps` hits its
`assert!(former_value.is_none(), "Duplicated leaf indices are not allowed…")`
whenever two mutation entries share a `data_index`: the call panics
(embedded as `none`) instead of returning a value — unlike
`verify_batch_update`, which returns `false` (C8). -/
theorem C10_batch_mutate_duplicate_panics {D : Type} [DecidableEq D]
    (hashPair : D → D → D) (acc : MmrAccumulator D)
    (mps : List (MembershipProof D)) (data : List (MembershipProof D × D))
    (hdup : ¬ (data.map (fun pr => pr.1.data_index)).Nodup) :
    MmrAccumulator.batch_mutate_leaf_and_update_mps hashPair acc mps data
      = none := by
  unfold MmrAccumulator.batch_mutate_leaf_and_update_mps
  rw [batchPhase1_dup_none hashPair acc.leaf_count data.reverse [] acc.peaks
    (Or.inl (fun hc => hdup (by
      rw [List.map_reverse, List.nodup_reverse] at hc
      exact hc)))]

/-- Witness for C10: two mutations of leaf `0` make the batch call panic. -/
theorem C10_batch_mutate_duplicate_panics_witness :
    MmrAccumulator.batch_mutate_leaf_and_update_mps
      (fun a b => 2 * a + 3 * b + 5) (⟨1, [7]⟩ : MmrAccumulator Nat) []
      [(⟨0, []⟩, 4), (⟨0, []⟩, 6)] = none :=
  C10_batch_mutate_duplicate_panics _ _ _ _ (by decide)

/-! ### C9: batch mutation vs. sequential mutation -/

/-- C9 counterexample: a two-leaf MMR (leaves 10 and 11, peak
`H 10 11 = 58` for `H a b = 2a + 3b + 5`) with two valid membership proofs
of distinct leaves.  `batch_mutate_leaf_and_update_mps` uses the shared
node-to-digest map, so the second processed leaf sees the first one's new
value (peak `H 20 21 = 108`); applying the same two mutations one at a time
via `mutate_leaf` with the given (stale) proofs hashes new values against
old sibling digests (final peak `H 10 21 = 88`). -/
theorem C9_counterexample_two_mutations :
    mpVerify (fun a b => 2 * a + 3 * b + 5) [58] 2 ⟨0, [11]⟩ 10 = true
    ∧ mpVerify (fun a b => 2 * a + 3 * b + 5) [58] 2 ⟨1, [10]⟩ 11 = true
    ∧ (MmrAccumulator.batch_mutate_leaf_and_update_mps
        (fun a b => 2 * a + 3 * b + 5) (⟨2, [58]⟩ : MmrAccumulator Nat) []
        [(⟨0, [11]⟩, 20), (⟨1, [10]⟩, 21)]).map (fun r => r.1.peaks)
      = some [108]
    ∧ ((MmrAccumulator.mutate_leaf (fun a b => 2 * a + 3 * b + 5)
          (⟨2, [58]⟩ : MmrAccumulator Nat) ⟨0, [11]⟩ 20).bind
        (fun a2 => MmrAccumulator.mutate_leaf (fun a b => 2 * a + 3 * b + 5)
          a2 ⟨1, [10]⟩ 21)).map (fun a3 => a3.peaks) = some [88] := by
  decide

theorem lookup_eq_none_of {α β : Type} [DecidableEq α] :
    ∀ (table : List (α × β)) (x : α), (∀ kv ∈ table, kv.1 ≠ x) →
      table.lookup x = none := by
  intro table x
  induction table with
  | nil => intro _; rfl
  | cons kv rest ih =>
    intro h
    have h1 : kv.1 ≠ x := h kv (List.mem_cons_self kv rest)
    have hbe : (x == kv.1) = false :=
      beq_eq_false_iff_ne.mpr (fun hc => h1 hc.symm)
    simp only [List.lookup, hbe]
    exact ih (fun kv2 hm => h kv2 (List.mem_cons_of_mem kv hm))

theorem log2Fuel_spec : ∀ (fuel n : Nat), n ≤ fuel → 1 ≤ n →
    2 ^ log2Fuel fuel n ≤ n ∧ n < 2 ^ (log2Fuel fuel n + 1) := by
  intro fuel
  induction fuel with
  | zero => intro n h1 h2; exfalso; omega
  | succ fuel ih =>
    intro n h1 h2
    rw [log2Fuel]
    by_cases h : 2 ≤ n
    · rw [if_pos h]
      obtain ⟨ha, hb⟩ := ih (n / 2) (by omega) (by omega)
      rw [pow_succ, pow_succ] at *
      omega
    · rw [if_neg h]
      constructor
      · simpa using h2
      · simpa using by omega

theorem lmaH_spec (n : Nat) (h : 1 ≤ n) :
    2 ^ lmaH n ≤ n ∧ n < 2 ^ (lmaH n + 1) :=
  log2Fuel_spec n n le_rfl h

theorem lmaH_eq (n h : Nat) (h1 : 2 ^ h ≤ n) (h2 : n < 2 ^ (h + 1)) :
    lmaH n = h := by
  have hn : 1 ≤ n := le_trans Nat.one_le_two_pow h1
  obtain ⟨ha, hb⟩ := lmaH_spec n hn
  by_contra hne
  rcases Nat.lt_or_ge (lmaH n) h with hlt | hge
  · have := Nat.pow_le_pow_right (by norm_num : 1 ≤ 2) hlt
    omega
  · have hgt : h < lmaH n := lt_of_le_of_ne hge (fun hc => hne hc.symm)
    have := Nat.pow_le_pow_right (by norm_num : 1 ≤ 2) hgt
    omega

/-- The descent through a complete subtree of height `H` rooted at postorder
index `c`: for an inner position `n` of the subtree, the reported height is
below `H`, the parent step stays inside the subtree, reaching the root means
the node was a child of the root, and otherwise the parent's reported height
is one more. -/
theorem desc_spec : ∀ (H c n : Nat) (r : Bool) (k : Nat),
    2 ^ (H + 1) ≤ c + 1 → c + 2 ≤ n + 2 ^ (H + 1) → n + 1 ≤ c →
    desc H c n = (r, k) →
    k < H
    ∧ (if r then n + 1 else n + 2 ^ (k + 1)) ≤ c
    ∧ ((if r then n + 1 else n + 2 ^ (k + 1)) = c → k + 1 = H)
    ∧ ((if r then n + 1 else n + 2 ^ (k + 1)) < c →
        (desc H c (if r then n + 1 else n + 2 ^ (k + 1))).2 = k + 1) := by
  intro H
  induction H with
  | zero =>
    intro c n r k hroot hlo hhi _
    exfalso
    simp only [pow_succ, pow_zero, one_mul] at hlo
    omega
  | succ hh ih =>
    intro c n r k hroot hlo hhi hdesc
    have hp1 : 1 ≤ 2 ^ (hh + 1) := Nat.one_le_two_pow
    have hps : 2 ^ (hh + 1 + 1) = 2 ^ (hh + 1) * 2 := pow_succ 2 (hh + 1)
    simp only [desc] at hdesc
    by_cases h1 : n = c - 2 ^ (hh + 1)
    · rw [if_pos h1] at hdesc
      injection hdesc with hr hk
      subst hr; subst hk
      simp only [if_false, Bool.false_eq_true]
      have hpc : n + 2 ^ (hh + 1) = c := by omega
      refine ⟨by omega, by omega, ?_, ?_⟩
      · intro _
        trivial
      · intro hc
        exact absurd hpc (by omega)
    · rw [if_neg h1] at hdesc
      by_cases h2 : n < c - 2 ^ (hh + 1)
      · rw [if_pos h2] at hdesc
        obtain ⟨ihk, ihle, iheq, ihlt⟩ := ih (c - 2 ^ (hh + 1)) n r k
          (by omega) (by omega) (by omega) hdesc
        set p := if r then n + 1 else n + 2 ^ (k + 1) with hpdef
        have hplt : p < c := by omega
        refine ⟨by omega, by omega, fun hc => by omega, fun _ => ?_⟩
        simp only [desc]
        by_cases hq1 : p = c - 2 ^ (hh + 1)
        · rw [if_pos hq1]
          exact (iheq hq1).symm ▸ rfl
        · rw [if_neg hq1]
          rw [if_pos (by omega : p < c - 2 ^ (hh + 1))]
          exact ihlt (by omega)
      · rw [if_neg h2] at hdesc
        by_cases h3 : n = c - 1
        · rw [if_pos h3] at hdesc
          injection hdesc with hr hk
          subst hr; subst hk
          simp only [if_true]
          have hpc : n + 1 = c := by omega
          refine ⟨by omega, by omega, ?_, ?_⟩
          · intro _
            trivial
          · intro hc
            exact absurd hpc (by omega)
        · rw [if_neg h3] at hdesc
          obtain ⟨ihk, ihle, iheq, ihlt⟩ := ih (c - 1) n r k
            (by omega) (by omega) (by omega) hdesc
          set p := if r then n + 1 else n + 2 ^ (k + 1) with hpdef
          have hpgt : c - 2 ^ (hh + 1) < p := by
            have : n < p := by
              have : 1 ≤ 2 ^ (k + 1) := Nat.one_le_two_pow
              rw [hpdef]; cases r <;> simp
            omega
          refine ⟨by omega, by omega, fun hc => by omega, fun _ => ?_⟩
          simp only [desc]
          rw [if_neg (by omega : ¬ p = c - 2 ^ (hh + 1))]
          rw [if_neg (by omega : ¬ p < c - 2 ^ (hh + 1))]
          by_cases hq3 : p = c - 1
          · rw [if_pos hq3]
            exact (iheq hq3).symm ▸ rfl
          · rw [if_neg hq3]
            exact ihlt (by omega)

/-- Climbing one step with `parent` increases the reported height by one. -/
theorem rcah_parent (n : Nat) (h1 : 1 ≤ n) :
    (right_child_and_height (parent n)).2
      = (right_child_and_height n).2 + 1 := by
  obtain ⟨hlo, hhi⟩ := lmaH_spec n h1
  have hq0 : 1 ≤ 2 ^ lmaH n := Nat.one_le_two_pow
  have hq1 : 1 ≤ 2 ^ (lmaH n + 1) := Nat.one_le_two_pow
  have hq2 : 2 ^ (lmaH n + 1 + 1) = 2 ^ (lmaH n + 1) * 2 := pow_succ 2 _
  by_cases hA : n = 2 ^ (lmaH n + 1) - 1
  · have hr : right_child_and_height n = (false, lmaH n) := by
      simp only [right_child_and_height]
      rw [if_pos hA]
    have hpar : parent n = 2 ^ (lmaH n + 1 + 1) - 1 := by
      simp only [parent, hr, Bool.false_eq_true, if_false]
      omega
    have hl2 : lmaH (2 ^ (lmaH n + 1 + 1) - 1) = lmaH n + 1 := by
      apply lmaH_eq <;> omega
    rw [hpar, hr]
    simp only [right_child_and_height, hl2, if_true]
  · have ha : n < 2 ^ (lmaH n + 1) - 1 := by omega
    cases hdesc : desc (lmaH n) (2 ^ (lmaH n + 1) - 1) n with
    | mk r k =>
      obtain ⟨hk, hle, heq, hlt⟩ := desc_spec (lmaH n) (2 ^ (lmaH n + 1) - 1)
        n r k (by omega) (by omega) (by omega) hdesc
      have hr : right_child_and_height n = (r, k) := by
        simp only [right_child_and_height]
        rw [if_neg hA, hdesc]
      have hpar : parent n = (if r then n + 1 else n + 2 ^ (k + 1)) := by
        simp only [parent, hr]
      have hq3 : 1 ≤ 2 ^ (k + 1) := Nat.one_le_two_pow
      have hgt : n < (if r then n + 1 else n + 2 ^ (k + 1)) := by
        cases r <;> simp
      rw [hpar, hr]
      by_cases hpa : (if r then n + 1 else n + 2 ^ (k + 1))
          = 2 ^ (lmaH n + 1) - 1
      · have hkh := heq hpa
        have hl2 : lmaH (2 ^ (lmaH n + 1) - 1) = lmaH n := by
          apply lmaH_eq <;> omega
        rw [hpa]
        simp only [right_child_and_height, hl2, if_true]
        show lmaH n = k + 1
        omega
      · have hplt : (if r then n + 1 else n + 2 ^ (k + 1))
            < 2 ^ (lmaH n + 1) - 1 := by omega
        have hl2 : lmaH (if r then n + 1 else n + 2 ^ (k + 1)) = lmaH n := by
          apply lmaH_eq <;> omega
        simp only [right_child_and_height, hl2]
        rw [if_neg hpa]
        exact hlt hplt

/-- Along a single upward walk, the shared map holds only nodes below the
current one (inside its sibling window), so every sibling lookup misses and
`batchWalk` computes exactly the `climb` hash chain. -/
theorem batchWalk_eq_climb {D : Type} [DecidableEq D] (hp : D → D → D) :
    ∀ (path : List D) (node : Nat) (acc : D) (table : List (Nat × D)),
      1 ≤ node →
      (∀ kv ∈ table, 1 ≤ kv.1 ∧ kv.1 ≤ node ∧
        node + 2 ≤ kv.1 + 2 ^ ((right_child_and_height node).2 + 1)) →
      (MmrAccumulator.batchWalk hp path node acc table).1
        = climb hp node acc path := by
  intro path
  induction path with
  | nil => intro node acc table _ _; rfl
  | cons hash rest ih =>
    intro node acc table h1 h2
    have hq1 : 1 ≤ 2 ^ ((right_child_and_height node).2 + 1) :=
      Nat.one_le_two_pow
    have hq0 : 1 ≤ 2 ^ (right_child_and_height node).2 := Nat.one_le_two_pow
    have hq2 : 2 ^ ((right_child_and_height node).2 + 1)
        = 2 ^ (right_child_and_height node).2 * 2 := pow_succ 2 _
    have hmiss : table.lookup
        (if (right_child_and_height node).1
          then left_sibling node (right_child_and_height node).2
          else right_sibling node (right_child_and_height node).2) = none := by
      apply lookup_eq_none_of
      intro kv hkv
      obtain ⟨ha, hb, hc⟩ := h2 kv hkv
      cases hr : (right_child_and_height node).1
      · simp only [Bool.false_eq_true, if_false]
        unfold right_sibling
        omega
      · simp only [if_true]
        unfold left_sibling
        omega
    cases rest with
    | nil =>
      simp only [MmrAccumulator.batchWalk, climb, hmiss, Option.getD_none]
    | cons hash2 rest2 =>
      rw [MmrAccumulator.batchWalk, climb, hmiss, Option.getD_none, parent]
      simp only [List.isEmpty_cons, Bool.false_eq_true, if_false]
      have hstep := rcah_parent node h1
      rw [parent] at hstep
      have hq3 : 2 ^ ((right_child_and_height node).2 + 1 + 1)
          = 2 ^ ((right_child_and_height node).2 + 1) * 2 := pow_succ 2 _
      apply ih
      · by_cases hr : (right_child_and_height node).1 = true
        · simp only [hr, if_true]
          omega
        · rw [Bool.not_eq_true] at hr
          simp only [hr, Bool.false_eq_true, if_false]
          omega
      · intro kv hkv
        by_cases hr : (right_child_and_height node).1 = true
        · simp only [hr, if_true] at hstep hkv ⊢
          rw [hstep]
          rcases List.mem_cons.mp hkv with rfl | hmem
          · exact ⟨by omega, le_rfl, by omega⟩
          · obtain ⟨ha, hb, hc⟩ := h2 kv hmem
            exact ⟨ha, by omega, by omega⟩
        · rw [Bool.not_eq_true] at hr
          simp only [hr, Bool.false_eq_true, if_false] at hstep hkv ⊢
          rw [hstep]
          rcases List.mem_cons.mp hkv with rfl | hmem
          · exact ⟨by omega, le_rfl, by omega⟩
          · obtain ⟨ha, hb, hc⟩ := h2 kv hmem
            exact ⟨ha, by omega, by omega⟩

theorem findPeakAux_get : ∀ (heights : List Nat) (idx acc d pidx h : Nat),
    findPeakAux heights idx acc d = some (pidx, h) →
    idx ≤ pidx ∧ heights[pidx - idx]? = some h := by
  intro heights
  induction heights with
  | nil =>
    intro idx acc d pidx h hf
    exact absurd hf (by rw [findPeakAux]; simp)
  | cons h0 rest ih =>
    intro idx acc d pidx h hf
    rw [findPeakAux] at hf
    by_cases hc : d < acc + 2 ^ h0
    · rw [if_pos hc] at hf
      injection hf with hf2
      injection hf2 with ha hb
      subst ha; subst hb
      exact ⟨le_rfl, by simp⟩
    · rw [if_neg hc] at hf
      obtain ⟨h1, h2⟩ := ih (idx + 1) (acc + 2 ^ h0) d pidx h hf
      refine ⟨by omega, ?_⟩
      have he : pidx - idx = (pidx - (idx + 1)) + 1 := by omega
      rw [he]
      simpa using h2

theorem getElem?_indexOf? : ∀ (l : List Nat) (j h : Nat), l.Nodup →
    l[j]? = some h → l.indexOf? h = some j := by
  intro l
  induction l with
  | nil => intro j h _ hg; simp at hg
  | cons x rest ih =>
    intro j h hnd hg
    rw [List.nodup_cons] at hnd
    cases j with
    | zero =>
      simp only [List.getElem?_cons_zero, Option.some_inj] at hg
      subst hg
      simp [List.indexOf?]
    | succ j =>
      simp only [List.getElem?_cons_succ] at hg
      have hmem : h ∈ rest := by
        obtain ⟨hlt, hget⟩ := List.getElem?_eq_some.mp hg
        exact hget ▸ List.getElem_mem hlt
      have hne : (x == h) = false :=
        beq_eq_false_iff_ne.mpr (fun hc => hnd.1 (hc ▸ hmem))
      simp only [List.indexOf?] at *
      rw [List.findIdx?_cons]
      simp only [hne, Bool.false_eq_true, if_false]
      rw [List.findIdx?_succ]
      rw [ih j h hnd.2 hg]
      rfl

theorem peakHeights_nodup (lc : Nat) : (peakHeights lc).Nodup := by
  unfold peakHeights
  exact List.nodup_reverse.mpr ((List.nodup_range 128).filter _)

theorem findPeak_peak_index (lc d pidx h : Nat)
    (hf : findPeak lc d = some (pidx, h)) :
    (peakHeights lc).indexOf? h = some pidx
    ∧ leaf_index_to_peak_index d lc = pidx := by
  constructor
  · obtain ⟨h1, h2⟩ := findPeakAux_get (peakHeights lc) 0 0 d pidx h hf
    exact getElem?_indexOf? _ _ _ (peakHeights_nodup lc) (by simpa using h2)
  · unfold leaf_index_to_peak_index
    rw [hf]
    rfl

theorem replicate_pairwise_le (n i : Nat) :
    (List.replicate n i).Pairwise (· ≤ ·) := by
  induction n with
  | zero => simp
  | succ n ih =>
    rw [List.replicate_succ, List.pairwise_cons]
    exact ⟨fun x hx => le_of_eq (List.eq_of_mem_replicate hx).symm, ih⟩

theorem phase2Indices_sorted {D : Type} [DecidableEq D]
    (table : List (Nat × D)) :
    ∀ (mps : List (MembershipProof D)) (i : Nat),
      (MmrAccumulator.phase2Indices table i mps).Pairwise (· ≤ ·)
      ∧ ∀ x ∈ MmrAccumulator.phase2Indices table i mps, i ≤ x := by
  intro mps
  induction mps with
  | nil =>
    intro i
    exact ⟨List.Pairwise.nil, fun x hx => absurd hx (List.not_mem_nil x)⟩
  | cons mp rest ih =>
    intro i
    rw [MmrAccumulator.phase2Indices]
    constructor
    · rw [List.pairwise_append]
      refine ⟨replicate_pairwise_le _ _, (ih (i + 1)).1, ?_⟩
      intro x hx y hy
      have hxi : x = i := List.eq_of_mem_replicate hx
      have hyi := (ih (i + 1)).2 y hy
      omega
    · intro x hx
      rcases List.mem_append.mp hx with h1 | h2
      · exact le_of_eq (List.eq_of_mem_replicate h1).symm
      · have := (ih (i + 1)).2 x h2
        omega

theorem consecDedup_subset {α : Type} [DecidableEq α] :
    ∀ (l : List α) (z : α), z ∈ MmrAccumulator.consecDedup l → z ∈ l := by
  intro l
  induction l with
  | nil => intro z hz; exact absurd hz (List.not_mem_nil z)
  | cons x tail ih =>
    cases tail with
    | nil => intro z hz; exact hz
    | cons y rest =>
      intro z hz
      rw [MmrAccumulator.consecDedup] at hz
      by_cases hxy : x = y
      · rw [if_pos hxy] at hz
        exact List.mem_cons_of_mem x (ih z hz)
      · rw [if_neg hxy] at hz
        rcases List.mem_cons.mp hz with rfl | hz2
        · exact List.mem_cons_self z _
        · exact List.mem_cons_of_mem x (ih z hz2)

theorem consecDedup_pairwise_lt :
    ∀ l : List Nat, l.Pairwise (· ≤ ·) →
      (MmrAccumulator.consecDedup l).Pairwise (· < ·) := by
  intro l
  induction l with
  | nil => intro _; exact List.Pairwise.nil
  | cons x tail ih =>
    cases tail with
    | nil => intro _; simp [MmrAccumulator.consecDedup]
    | cons y rest =>
      intro hp
      rw [List.pairwise_cons] at hp
      obtain ⟨hx, htail⟩ := hp
      rw [MmrAccumulator.consecDedup]
      by_cases hxy : x = y
      · rw [if_pos hxy]
        exact ih htail
      · rw [if_neg hxy]
        rw [List.pairwise_cons]
        refine ⟨?_, ih htail⟩
        intro z hz
        have hzmem : z ∈ y :: rest := consecDedup_subset _ z hz
        have hxz : x ≤ z := hx z hzmem
        rcases List.mem_cons.mp hzmem with rfl | hzr
        · exact lt_of_le_of_ne hxz hxy
        · have hyz : y ≤ z := (List.pairwise_cons.mp htail).1 z hzr
          have hxylt : x < y :=
            lt_of_le_of_ne (hx y (List.mem_cons_self y rest)) hxy
          omega

theorem consecDedup_nodup_of_sorted (l : List Nat)
    (h : l.Pairwise (· ≤ ·)) : (MmrAccumulator.consecDedup l).Nodup :=
  (consecDedup_pairwise_lt l h).imp Nat.ne_of_lt

/-- C9 (amended): for a single leaf mutation with a valid membership proof,
`batch_mutate_leaf_and_update_mps` leaves the accumulator exactly as
`mutate_leaf` does; and for every mutation list, whenever the batch call
returns, its list of modified membership-proof indices has no duplicates.
(For two or more mutations the peaks can differ, because `mutate_leaf`
applied one at a time consumes the stale authentication paths — see the
counterexample.) -/
theorem C9_batch_single_mutation_and_nodup {D : Type} [DecidableEq D]
    (hp : D → D → D) (acc : MmrAccumulator D)
    (mps : List (MembershipProof D)) (mp : MembershipProof D)
    (leaf new_leaf : D)
    (hvalid : mpVerify hp acc.peaks acc.leaf_count mp leaf = true) :
    (MmrAccumulator.batch_mutate_leaf_and_update_mps hp acc mps
        [(mp, new_leaf)]).map (fun r => r.1)
      = MmrAccumulator.mutate_leaf hp acc mp new_leaf
    ∧ ∀ (mutation_data : List (MembershipProof D × D))
        (r : MmrAccumulator D × List (MembershipProof D) × List Nat),
        MmrAccumulator.batch_mutate_leaf_and_update_mps hp acc mps
          mutation_data = some r →
        r.2.2.Nodup := by
  constructor
  · cases hfp : findPeak acc.leaf_count mp.data_index with
    | none =>
      unfold mpVerify at hvalid
      rw [hfp] at hvalid
      simp at hvalid
    | some pr =>
      obtain ⟨pidx, h⟩ := pr
      unfold mpVerify at hvalid
      rw [hfp] at hvalid
      simp only [Bool.and_eq_true, beq_iff_eq] at hvalid
      obtain ⟨_hlen, hpeak⟩ := hvalid
      obtain ⟨hplt, -⟩ := List.get?_eq_some.mp hpeak
      obtain ⟨hidx, hlip⟩ :=
        findPeak_peak_index acc.leaf_count mp.data_index pidx h hfp
      have hnode : 1 ≤ data_index_to_node_index mp.data_index := by
        unfold data_index_to_node_index
        omega
      have hwalk : (MmrAccumulator.batchWalk hp mp.authentication_path
          (data_index_to_node_index mp.data_index) new_leaf
          [(data_index_to_node_index mp.data_index, new_leaf)]).1
          = climb hp (data_index_to_node_index mp.data_index) new_leaf
              mp.authentication_path := by
        apply batchWalk_eq_climb hp _ _ _ _ hnode
        intro kv hkv
        rcases List.mem_cons.mp hkv with rfl | hmem
        · have hq0 : 1 ≤ 2 ^ (right_child_and_height
              (data_index_to_node_index mp.data_index)).2 :=
            Nat.one_le_two_pow
          have hq2 : 2 ^ ((right_child_and_height
                (data_index_to_node_index mp.data_index)).2 + 1)
              = 2 ^ (right_child_and_height
                (data_index_to_node_index mp.data_index)).2 * 2 :=
            pow_succ 2 _
          exact ⟨hnode, le_rfl, by omega⟩
        · exact absurd hmem (List.not_mem_nil kv)
      have hphase : MmrAccumulator.batchPhase1 hp acc.leaf_count
          [(mp, new_leaf)] [] acc.peaks = some
            ((MmrAccumulator.batchWalk hp mp.authentication_path
              (data_index_to_node_index mp.data_index) new_leaf
              [(data_index_to_node_index mp.data_index, new_leaf)]).2,
             acc.peaks.set pidx
              (climb hp (data_index_to_node_index mp.data_index) new_leaf
                mp.authentication_path)) := by
        rw [MmrAccumulator.batchPhase1]
        simp only [List.lookup_nil, Option.isSome_none, Bool.false_eq_true,
          if_false]
        rw [hlip]
        rw [if_pos hplt]
        rw [MmrAccumulator.batchPhase1]
        rw [hwalk]
      have hbatch : MmrAccumulator.batch_mutate_leaf_and_update_mps hp acc
          mps [(mp, new_leaf)] = some
            (⟨acc.leaf_count, acc.peaks.set pidx
              (climb hp (data_index_to_node_index mp.data_index) new_leaf
                mp.authentication_path)⟩,
             mps.map (MmrAccumulator.phase2One
              (MmrAccumulator.batchWalk hp mp.authentication_path
                (data_index_to_node_index mp.data_index) new_leaf
                [(data_index_to_node_index mp.data_index, new_leaf)]).2),
             MmrAccumulator.consecDedup (MmrAccumulator.phase2Indices
              (MmrAccumulator.batchWalk hp mp.authentication_path
                (data_index_to_node_index mp.data_index) new_leaf
                [(data_index_to_node_index mp.data_index, new_leaf)]).2
              0 mps)) := by
        unfold MmrAccumulator.batch_mutate_leaf_and_update_mps
        rw [show ([(mp, new_leaf)] : List (MembershipProof D × D)).reverse
            = [(mp, new_leaf)] from rfl]
        rw [hphase]
      rw [hbatch]
      unfold MmrAccumulator.mutate_leaf get_peak_height
      rw [hfp]
      simp only [Option.map_some']
      rw [hidx]
      simp only [hplt, if_true]
  · intro mutation_data r hr
    cases hph : MmrAccumulator.batchPhase1 hp acc.leaf_count
        mutation_data.reverse [] acc.peaks with
    | none =>
      have hnone : MmrAccumulator.batch_mutate_leaf_and_update_mps hp acc
          mps mutation_data = none := by
        unfold MmrAccumulator.batch_mutate_leaf_and_update_mps
        rw [hph]
      rw [hnone] at hr
      cases hr
    | some pr =>
      have hsome : MmrAccumulator.batch_mutate_leaf_and_update_mps hp acc
          mps mutation_data = some
            (⟨acc.leaf_count, pr.2⟩,
             mps.map (MmrAccumulator.phase2One pr.1),
             MmrAccumulator.consecDedup
              (MmrAccumulator.phase2Indices pr.1 0 mps)) := by
        unfold MmrAccumulator.batch_mutate_leaf_and_update_mps
        rw [hph]
      rw [hsome] at hr
      injection hr with hr2
      subst hr2
      exact consecDedup_nodup_of_sorted _ (phase2Indices_sorted pr.1 mps 0).1

/-- Witness for C9: the single mutation `(leaf 0 ↦ 20)` on the two-leaf MMR,
where batch and `mutate_leaf` agree. -/
theorem C9_batch_single_mutation_and_nodup_witness :
    mpVerify (fun a b => 2 * a + 3 * b + 5) [58] 2 ⟨0, [11]⟩ 10 = true
    ∧ (MmrAccumulator.batch_mutate_leaf_and_update_mps
        (fun a b => 2 * a + 3 * b + 5) (⟨2, [58]⟩ : MmrAccumulator Nat) []
        [(⟨0, [11]⟩, 20)]).map (fun r => r.1)
      = MmrAccumulator.mutate_leaf (fun a b => 2 * a + 3 * b + 5)
          (⟨2, [58]⟩ : MmrAccumulator Nat) ⟨0, [11]⟩ 20 :=
  ⟨by decide,
   (C9_batch_single_mutation_and_nodup (fun a b => 2 * a + 3 * b + 5)
     (⟨2, [58]⟩ : MmrAccumulator Nat) [] ⟨0, [11]⟩ 10 20 (by decide)).1⟩

end TwentyFirst
